import Mathlib

/-!
Verification of the OpenMatch batch-auction engine core.

This file is a shallow embedding, in Lean 4, of the matching and settlement
pipeline of the OpenMatch repository (crates `openmatch-types`,
`openmatch-core`, `openmatch-settlement`), together with theorems settling
the specification claims about it.

Modelling conventions, fixed once for the whole file:

* `rust_decimal::Decimal` values are modelled as exact rationals (`ℚ`).
  `Decimal::MAX` is the concrete constant `DMAX = 79228162514264337593543950335`
  (the largest `rust_decimal` value, used by the source as the `+∞` sentinel
  for market buys).  `checked_mul` is modelled as returning `none` exactly
  when the exact product exceeds `DMAX` in magnitude; within range the model
  computes the exact product (the embedding does not model the 28-digit
  rounding of in-range products, which no claim depends on).
* Interned asset symbols, user ids, order ids and node ids are opaque
  identifiers compared only for equality; they are modelled as naturals.
* `TradeId::deterministic(epoch, seq)` takes the first 16 bytes of a SHA-256
  of a domain-separated encoding of `(epoch, seq)`; since every claim about
  trade ids only needs that equal inputs give equal ids, a trade id is
  modelled as the pair `(epoch, seq)` itself.
* SHA-256 hash commitments (`batch_hash`, `result_hash`) are modelled by
  their pre-image token streams: the hash functions of the source are pure,
  so equal token streams give equal hashes.  Each `HashTok` constructor
  corresponds to one `hasher.update(..)` call of the source; decimal
  operands appear as the rational itself because the source serialises a
  decimal by its canonical (injective) string.
* `&mut self` methods returning `Result` are modelled as functions from the
  state to a pair of an `Except` result and the post state, so that the
  state after an error is part of the model (the source keeps the mutated
  state on error).
-/

set_option linter.unusedVariables false

namespace OpenMatch

/-- Model of `Decimal::MAX` of `rust_decimal`: 79228162514264337593543950335. -/
def DMAX : ℚ := 79228162514264337593543950335

/-- `OrderSide` from `openmatch-types/src/order.rs` (`Buy` precedes `Sell`
in the derived `Ord`). -/
inductive Side
  | buy
  | sell
deriving DecidableEq

/-- `OrderType` from `openmatch-types/src/order.rs`. -/
inductive OType
  | limit
  | market
  | cancel
deriving DecidableEq

/-- The fields of `Order` (`openmatch-types/src/order.rs`) read or written by
the embedded operations.  `id`, `user_id` are opaque identifiers; timestamps,
status, market and escrow references are not consulted by any embedded
function and are omitted. -/
structure Order where
  id : ℕ
  user_id : ℕ
  side : Side
  order_type : OType
  price : Option ℚ
  quantity : ℚ
  remaining_qty : ℚ
  sequence : ℕ
deriving DecidableEq

/-- `Order::effective_price` from `openmatch-types/src/order.rs`:
Limit → `price.unwrap_or(ZERO)`; Market-Buy → `Decimal::MAX`;
Market-Sell and Cancel → `Decimal::ZERO`. -/
def effective_price (o : Order) : ℚ :=
  match o.order_type, o.side with
  | OType.limit, _ => o.price.getD 0
  | OType.market, Side.buy => DMAX
  | OType.market, Side.sell => 0
  | OType.cancel, _ => 0

/-! ## Clearing-price solver (`openmatch-core/src/clearing.rs`) -/

/-- `ClearingResult` from `openmatch-core/src/clearing.rs`. -/
structure ClearingResult where
  price : ℚ
  volume : ℚ
  demand : ℚ
  supply : ℚ
deriving DecidableEq

/-- Insertion into a strictly ascending list of prices, keeping it strictly
ascending: the model of `BTreeSet::insert` on `Decimal` keys. -/
def insertPrice (p : ℚ) : List ℚ → List ℚ
  | [] => [p]
  | q :: qs =>
    if p < q then p :: q :: qs
    else if p = q then q :: qs
    else q :: insertPrice p qs

/-- The candidate price set of `compute_clearing_price`: every effective
price of the given orders except the `Decimal::MAX` market-buy sentinel,
collected into a `BTreeSet` (modelled as a strictly ascending list, iterated
in ascending order like the source's `for &p in &price_set`). -/
def candidateSet (os : List Order) : List ℚ :=
  os.foldl
    (fun acc o =>
      if effective_price o ≠ DMAX then insertPrice (effective_price o) acc else acc)
    []

/-- Demand at price `p`: sum of `remaining_qty` over buys whose effective
price is at least `p` (`compute_clearing_price`, demand loop). -/
def demandAt (buys : List Order) (p : ℚ) : ℚ :=
  ((buys.filter fun b => decide (p ≤ effective_price b)).map Order.remaining_qty).sum

/-- Supply at price `p`: sum of `remaining_qty` over sells whose effective
price is at most `p` (`compute_clearing_price`, supply loop). -/
def supplyAt (sells : List Order) (p : ℚ) : ℚ :=
  ((sells.filter fun s => decide (effective_price s ≤ p)).map Order.remaining_qty).sum

/-- `matchable(p) = min(demand(p), supply(p))`. -/
def matchableAt (buys sells : List Order) (p : ℚ) : ℚ :=
  min (demandAt buys p) (supplyAt sells p)

/-- One iteration of the candidate loop of `compute_clearing_price`:
skip a candidate with zero matchable volume, otherwise keep the better of
the current best and the candidate (`is_better` logic: larger `matchable`,
then smaller `|demand - supply|`, then higher price). -/
def considerCandidate (buys sells : List Order) (best : Option ClearingResult) (p : ℚ) :
    Option ClearingResult :=
  let demand := demandAt buys p
  let supply := supplyAt sells p
  let matchable := min demand supply
  if matchable = 0 then best
  else
    let cand : ClearingResult := ⟨p, matchable, demand, supply⟩
    match best with
    | none => some cand
    | some current =>
      if current.volume < matchable then some cand
      else if matchable = current.volume then
        if |demand - supply| < |current.demand - current.supply| then some cand
        else if |demand - supply| = |current.demand - current.supply| then
          if current.price < p then some cand else some current
        else some current
      else some current

/-- `compute_clearing_price` from `openmatch-core/src/clearing.rs`. -/
def compute_clearing_price (buys sells : List Order) : Option ClearingResult :=
  if buys = [] ∨ sells = [] then none
  else if candidateSet (buys ++ sells) = [] then none
  else (candidateSet (buys ++ sells)).foldl (considerCandidate buys sells) none

/-- The absolute demand/supply imbalance `|demand(p) - supply(p)|` used by
the first tie-break of `compute_clearing_price`. -/
def imbalanceAt (buys sells : List Order) (p : ℚ) : ℚ :=
  |demandAt buys p - supplyAt sells p|

/-- The strict preference order of the clearing solver: `p` loses to `q`
when `q` has strictly larger matchable volume, or equal volume and strictly
smaller imbalance, or equal volume and imbalance and a strictly higher
price. -/
def clearingLT (buys sells : List Order) (p q : ℚ) : Prop :=
  matchableAt buys sells p < matchableAt buys sells q
  ∨ (matchableAt buys sells p = matchableAt buys sells q
      ∧ imbalanceAt buys sells q < imbalanceAt buys sells p)
  ∨ (matchableAt buys sells p = matchableAt buys sells q
      ∧ imbalanceAt buys sells p = imbalanceAt buys sells q
      ∧ p < q)

/-- Invariant of the candidate fold of `compute_clearing_price` over the
processed prefix of the candidate list: no best candidate found means every
processed price has zero matchable volume; a best candidate is a processed
price with non-zero matchable volume, carries its own volume, demand and
supply, and strictly beats every other processed price. -/
def clearingInv (buys sells : List Order) (processed : List ℚ) :
    Option ClearingResult → Prop
  | none => ∀ p ∈ processed, matchableAt buys sells p = 0
  | some r =>
      r.price ∈ processed
      ∧ matchableAt buys sells r.price ≠ 0
      ∧ r.volume = matchableAt buys sells r.price
      ∧ r.demand = demandAt buys r.price
      ∧ r.supply = supplyAt sells r.price
      ∧ ∀ q ∈ processed, q ≠ r.price → clearingLT buys sells q r.price

/-! ## Batch matcher (`openmatch-core/src/batch_matcher.rs`) -/

/-- Model of `TradeId::deterministic(epoch_id, fill_sequence)`
(`openmatch-types/src/ids.rs`): the source id is the first 16 bytes of a
SHA-256 over a domain-separated encoding of the pair, a pure function of it;
the model keeps the pair itself. -/
abbrev TradeIdM := ℕ × ℕ

/-- The fields of `Trade` (`openmatch-types/src/trade.rs`).  `matcher_node`
and `executed_at` record the matching node's identity and clock reading;
both are parameters of the embedded matcher. -/
structure Trade where
  id : TradeIdM
  batch_id : ℕ
  taker_order_id : ℕ
  taker_user_id : ℕ
  maker_order_id : ℕ
  maker_user_id : ℕ
  price : ℚ
  quantity : ℚ
  quote_amount : ℚ
  taker_side : Side
  matcher_node : ℕ
  executed_at : ℕ
deriving DecidableEq

/-- Model of `Decimal::checked_mul`: `none` exactly when the exact product
exceeds `Decimal::MAX` in magnitude. -/
def checkedMul (a b : ℚ) : Option ℚ :=
  if |a * b| ≤ DMAX then some (a * b) else none

/-- `cp.checked_mul(fill_qty).unwrap_or(Decimal::MAX)` from
`batch_matcher.rs`: saturating multiplication. -/
def satMul (a b : ℚ) : ℚ :=
  (checkedMul a b).getD DMAX

/-- The mutable state threaded through the fill loops of `match_batch`:
the sell vector, `sell_idx`, `fill_sequence` and the emitted trades. -/
structure LoopState where
  sells : List Order
  sell_idx : ℕ
  fill_sequence : ℕ
  trades : List Trade
deriving DecidableEq

/-- The trade record built by one fill of `match_batch`:
`fill = min(buy.remaining_qty, sell.remaining_qty)`, executed at the
clearing price with the saturating quote amount, deterministic id
`(batch, fill_sequence)`, taker side `Buy`. -/
def mkFillTrade (batchId node time : ℕ) (cp : ℚ) (buy sell : Order)
    (fillSeq : ℕ) : Trade :=
  { id := (batchId, fillSeq), batch_id := batchId,
    taker_order_id := buy.id, taker_user_id := buy.user_id,
    maker_order_id := sell.id, maker_user_id := sell.user_id,
    price := cp, quantity := min buy.remaining_qty sell.remaining_qty,
    quote_amount := satMul cp (min buy.remaining_qty sell.remaining_qty),
    taker_side := Side.buy, matcher_node := node, executed_at := time }

/-- The inner `while` loop of `match_batch` for one buy order.  The source
loop runs while `sell_idx < sells.len() && buy.remaining_qty > 0`; a fill of
`min(buy.remaining_qty, sell.remaining_qty)` either exhausts the sell
(`sell.remaining_qty < buy.remaining_qty`: advance `sell_idx` and keep
looping) or exhausts the buy (the next `buy.remaining_qty > 0` check fails,
so the loop returns, advancing `sell_idx` when the sell was exhausted
simultaneously); the two cases are written out here so that every recursive
call advances `sell_idx`. -/
def innerLoop (batchId node time : ℕ) (cp : ℚ) (buy : Order) (st : LoopState) :
    Order × LoopState :=
  if h : st.sell_idx < st.sells.length ∧ 0 < buy.remaining_qty then
    let sell := st.sells.get ⟨st.sell_idx, h.1⟩
    if cp < effective_price sell then
      (buy, st)
    else if sell.remaining_qty = 0 then
      innerLoop batchId node time cp buy { st with sell_idx := st.sell_idx + 1 }
    else if buy.user_id = sell.user_id then
      innerLoop batchId node time cp buy { st with sell_idx := st.sell_idx + 1 }
    else
      let fill_qty := min buy.remaining_qty sell.remaining_qty
      let trade := mkFillTrade batchId node time cp buy sell st.fill_sequence
      let buy' := { buy with remaining_qty := buy.remaining_qty - fill_qty }
      let sell' := { sell with remaining_qty := sell.remaining_qty - fill_qty }
      let sells' := st.sells.set st.sell_idx sell'
      if sell.remaining_qty < buy.remaining_qty then
        innerLoop batchId node time cp buy'
          { sells := sells', sell_idx := st.sell_idx + 1,
            fill_sequence := st.fill_sequence + 1, trades := st.trades ++ [trade] }
      else
        (buy',
          { sells := sells',
            sell_idx := if sell'.remaining_qty = 0 then st.sell_idx + 1 else st.sell_idx,
            fill_sequence := st.fill_sequence + 1, trades := st.trades ++ [trade] })
  else (buy, st)
termination_by st.sells.length - st.sell_idx
decreasing_by
  any_goals simp only [List.length_set]
  all_goals omega

/-- The outer `for buy in &mut buys` loop of `match_batch`: skip exhausted
buys, stop at the first buy whose effective price is below the clearing
price, otherwise run the inner loop; the processed buy vector is rebuilt in
order. -/
def outerLoop (batchId node time : ℕ) (cp : ℚ) :
    List Order → List Order → LoopState → List Order × LoopState
  | [], done, st => (done, st)
  | buy :: rest, done, st =>
    if buy.remaining_qty = 0 then
      outerLoop batchId node time cp rest (done ++ [buy]) st
    else if effective_price buy < cp then
      (done ++ buy :: rest, st)
    else
      let r := innerLoop batchId node time cp buy st
      outerLoop batchId node time cp rest (done ++ [r.1]) r.2

/-- Hash-input tokens.  Each constructor stands for one `hasher.update(..)`
call of the source; the serialisations of the source are injective per
token, so equality of token streams corresponds to equality of the hashed
byte streams. -/
inductive HashTok
  | prefixResult
  | prefixBatch
  | u64 (n : ℕ)
  | idBytes (n : ℕ)
  | tradeIdBytes (t : TradeIdM)
  | decStr (q : ℚ)
  | sideByte (s : Side)
deriving DecidableEq

/-- The per-trade tokens of `BatchMatcher::compute_result_hash`:
`trade.id || price || quantity || taker_order_id || maker_order_id`. -/
def tradeHashToks (t : Trade) : List HashTok :=
  [HashTok.tradeIdBytes t.id, HashTok.decStr t.price, HashTok.decStr t.quantity,
   HashTok.idBytes t.taker_order_id, HashTok.idBytes t.maker_order_id]

/-- `BatchMatcher::compute_result_hash`: the `"openmatch:result:v1:"` prefix,
the batch id, the trade count, then the per-trade tokens. -/
def compute_result_hash (batchId : ℕ) (trades : List Trade) : List HashTok :=
  HashTok.prefixResult :: HashTok.u64 batchId :: HashTok.u64 trades.length ::
    (trades.map tradeHashToks).flatten

/-- `BatchResult` from `batch_matcher.rs`. -/
structure BatchResult where
  batch_id : ℕ
  trades : List Trade
  result_hash : List HashTok
  input_hash : List HashTok
  remaining_orders : List Order
  clearing_price : Option ℚ
deriving DecidableEq

/-- Erase the node identity and clock reading of a trade (the two fields
of `Trade` that are not a function of the sealed input). -/
def scrubMeta (t : Trade) : Trade :=
  { t with matcher_node := 0, executed_at := 0 }

/-- The per-trade facts established at the emission site of the fill loop:
uniform price, self-trade prevention, saturating quote amount, taker side
`Buy`, and batch-scoped deterministic id. -/
def tradeCore (batchId : ℕ) (cp : ℚ) (tr : Trade) : Prop :=
  tr.price = cp ∧ tr.taker_user_id ≠ tr.maker_user_id ∧
    tr.quote_amount = satMul cp tr.quantity ∧ tr.taker_side = Side.buy ∧
    tr.batch_id = batchId

/-- Lexicographic order on a `(price-key, sequence)` pair: the model of a
Rust comparator `k1.cmp(..).then_with(|| seq.cmp(..))` producing `Less` or
`Equal`. -/
def lexQN (x y : ℚ × ℕ) : Prop :=
  x.1 < y.1 ∨ (x.1 = y.1 ∧ x.2 ≤ y.2)

instance (x y : ℚ × ℕ) : Decidable (lexQN x y) := by
  unfold lexQN
  infer_instance

/-- Sort key of the buy sort in `match_batch`:
`b.effective_price().cmp(&a.effective_price()).then_with(|| a.sequence.cmp(&b.sequence))`,
i.e. descending effective price then ascending sequence. -/
def buyKey (o : Order) : ℚ × ℕ :=
  (-(effective_price o), o.sequence)

/-- Sort key of the sell sort in `match_batch`: ascending effective price
then ascending sequence. -/
def sellKey (o : Order) : ℚ × ℕ :=
  (effective_price o, o.sequence)

/-- The buy comparator of `match_batch` as a relation. -/
def buyLE (a b : Order) : Prop :=
  lexQN (buyKey a) (buyKey b)

/-- The sell comparator of `match_batch` as a relation. -/
def sellLE (a b : Order) : Prop :=
  lexQN (sellKey a) (sellKey b)

instance : DecidableRel buyLE := fun a b => by
  unfold buyLE
  infer_instance

instance : DecidableRel sellLE := fun a b => by
  unfold sellLE
  infer_instance

/-- The `buys` vector of `match_batch`: the non-cancel buy orders, sorted
by descending effective price then ascending sequence. -/
def matchBuys (orders : List Order) : List Order :=
  List.insertionSort buyLE
    (orders.filter fun o => decide (o.side = Side.buy ∧ o.order_type ≠ OType.cancel))

/-- The `sells` vector of `match_batch`: the non-cancel sell orders, sorted
by ascending effective price then ascending sequence. -/
def matchSells (orders : List Order) : List Order :=
  List.insertionSort sellLE
    (orders.filter fun o => decide (o.side = Side.sell ∧ o.order_type ≠ OType.cancel))

/-- The matching pipeline of `BatchMatcher::match_batch` after
`take_orders`: partition out cancels, sort both sides, compute the clearing
price, run the fill loops, compute the result hash and collect the orders
with positive remaining quantity.  `node` and `time` are this node's
identity and the clock reading used for `matcher_node` / `executed_at`. -/
def matchOrders (batchId node time : ℕ) (orders : List Order)
    (input_hash : List HashTok) : BatchResult :=
  match compute_clearing_price (matchBuys orders) (matchSells orders) with
  | none =>
    { batch_id := batchId, trades := [],
      result_hash := compute_result_hash batchId [],
      input_hash := input_hash,
      remaining_orders :=
        (matchBuys orders ++ matchSells orders).filter fun o =>
          decide (0 < o.remaining_qty),
      clearing_price := none }
  | some clearing_result =>
    { batch_id := batchId,
      trades :=
        (outerLoop batchId node time clearing_result.price (matchBuys orders) []
          ⟨matchSells orders, 0, 0, []⟩).2.trades,
      result_hash :=
        compute_result_hash batchId
          (outerLoop batchId node time clearing_result.price (matchBuys orders) []
            ⟨matchSells orders, 0, 0, []⟩).2.trades,
      input_hash := input_hash,
      remaining_orders :=
        ((outerLoop batchId node time clearing_result.price (matchBuys orders) []
            ⟨matchSells orders, 0, 0, []⟩).1 ++
          (outerLoop batchId node time clearing_result.price (matchBuys orders) []
            ⟨matchSells orders, 0, 0, []⟩).2.sells).filter fun o =>
          decide (0 < o.remaining_qty),
      clearing_price := some clearing_result.price }

/-! ## Pending buffer and sealer (`openmatch-core/src/pending_buffer.rs`) -/

/-- Error variants of `OpenmatchError` (`openmatch-types/src/error.rs`)
reached by the embedded operations; reason strings are dropped. -/
inductive OMError
  | InvalidOrder
  | InsufficientBalance (needed available : ℚ)
  | InsufficientFrozen
  | BufferAlreadySealed
  | BufferFull
  | MatchingFailed
  | TradeAlreadySettled (id : TradeIdM)
  | WithdrawLockedDuringSettle
  | SupplyInvariantViolation
deriving DecidableEq

/-- Rank of the derived `Ord` on `OrderSide`: `Buy` before `Sell`. -/
def sideRank : Side → ℕ
  | Side.buy => 0
  | Side.sell => 1

/-- Three-component lexicographic order, the model of a Rust comparator
chain `cmp.then_with(cmp).then_with(cmp)` producing `Less` or `Equal`. -/
def lexNQN (x y : ℕ × ℚ × ℕ) : Prop :=
  x.1 < y.1 ∨ (x.1 = y.1 ∧ (x.2.1 < y.2.1 ∨ (x.2.1 = y.2.1 ∧ x.2.2 ≤ y.2.2)))

instance (x y : ℕ × ℚ × ℕ) : Decidable (lexNQN x y) := by
  unfold lexNQN
  infer_instance

/-- Sort key of the canonical sort in `PendingBuffer::seal`: side
(`Buy < Sell`), then effective price (descending for buys, ascending for
sells — encoded by negating the buy price), then ascending sequence. -/
def sealKey (o : Order) : ℕ × ℚ × ℕ :=
  (sideRank o.side,
   match o.side with
   | Side.buy => -(effective_price o)
   | Side.sell => effective_price o,
   o.sequence)

/-- The seal comparator as a relation. -/
def sealLE (a b : Order) : Prop :=
  lexNQN (sealKey a) (sealKey b)

instance : DecidableRel sealLE := fun a b => by
  unfold sealLE
  infer_instance

/-- The deterministic sort performed by `PendingBuffer::seal`. -/
def sealSort (orders : List Order) : List Order :=
  List.insertionSort sealLE orders

/-- The per-order tokens hashed by `PendingBuffer::seal`:
`order.id || sequence || effective_price || remaining_qty || side_byte`. -/
def orderHashToks (o : Order) : List HashTok :=
  [HashTok.idBytes o.id, HashTok.u64 o.sequence,
   HashTok.decStr (effective_price o), HashTok.decStr o.remaining_qty,
   HashTok.sideByte o.side]

/-- The batch hash computed by `PendingBuffer::seal`: the
`"openmatch:batch:v1:"` prefix, the batch id, the order count, then the
per-order tokens of the sorted orders. -/
def batchHashInput (batchId : ℕ) (orders : List Order) : List HashTok :=
  HashTok.prefixBatch :: HashTok.u64 batchId :: HashTok.u64 orders.length ::
    (orders.map orderHashToks).flatten

/-- `MAX_ORDERS_PER_BATCH` (`openmatch-types/src/constants.rs` default). -/
def MAX_ORDERS_PER_BATCH : ℕ := 100000

/-- `PendingBuffer` state (`openmatch-core/src/pending_buffer.rs`). -/
structure PendingBuffer where
  orders : List Order
  sequence_counter : ℕ
  sealed : Bool
  batch_hash : Option (List HashTok)
  batch_id : ℕ
deriving DecidableEq

/-- `PendingBuffer::new`. -/
def PendingBuffer.new (batchId : ℕ) : PendingBuffer :=
  ⟨[], 0, false, none, batchId⟩

/-- `PendingBuffer::push`: reject when sealed or full, otherwise assign the
next sequence number and append.  (The source also stamps the order with the
buffer's batch id, a field no embedded operation reads.) -/
def PendingBuffer.push (b : PendingBuffer) (o : Order) :
    Except OMError ℕ × PendingBuffer :=
  if b.sealed then (Except.error OMError.BufferAlreadySealed, b)
  else if MAX_ORDERS_PER_BATCH ≤ b.orders.length then
    (Except.error OMError.BufferFull, b)
  else
    let seq := b.sequence_counter
    (Except.ok seq,
     { b with orders := b.orders ++ [{ o with sequence := seq }],
              sequence_counter := b.sequence_counter + 1 })

/-- `PendingBuffer::seal`: one-shot; sorts the orders canonically, computes
and stores the batch hash. -/
def PendingBuffer.seal (b : PendingBuffer) :
    Except OMError (List HashTok) × PendingBuffer :=
  if b.sealed then (Except.error OMError.BufferAlreadySealed, b)
  else
    let sorted := sealSort b.orders
    let h := batchHashInput b.batch_id sorted
    (Except.ok h,
     { b with orders := sorted, sealed := true, batch_hash := some h })

/-- `PendingBuffer::take_orders`: consume a sealed buffer.  The source
unwraps the stored hash, which is always present once sealed; the model
defaults an absent hash to the empty token list. -/
def PendingBuffer.take_orders (b : PendingBuffer) :
    Except OMError (List Order × List HashTok) :=
  if b.sealed = false then Except.error OMError.MatchingFailed
  else Except.ok (b.orders, b.batch_hash.getD [])

/-- `BatchMatcher::match_batch`: take the sealed orders and run the
matching pipeline. -/
def match_batch (node time : ℕ) (b : PendingBuffer) : Except OMError BatchResult :=
  match b.take_orders with
  | Except.error e => Except.error e
  | Except.ok pair => Except.ok (matchOrders b.batch_id node time pair.1 pair.2)

/-! ## Balance ledger (`openmatch-core/src/balance_manager.rs`) -/

/-- `BalanceEntry` from `openmatch-types/src/balance.rs`. -/
structure BalanceEntry where
  available : ℚ
  frozen : ℚ
deriving DecidableEq

/-- The `(UserId, Asset) → BalanceEntry` map of `BalanceManager`, with the
auto-created zero entry of `get_mut` / `get` built in as the default. -/
abbrev Balances := ℕ × ℕ → BalanceEntry

/-- `BalanceManager::get` (zero entry when absent). -/
def getBal (m : Balances) (user asset : ℕ) : BalanceEntry :=
  m (user, asset)

/-- Writing one `(user, asset)` entry. -/
def setBal (m : Balances) (user asset : ℕ) (e : BalanceEntry) : Balances :=
  fun k => if k = (user, asset) then e else m k

/-- `MarketPair` (base and quote asset symbols). -/
structure MarketPair where
  base : ℕ
  quote : ℕ
deriving DecidableEq

/-- `BalanceManager::settle_trade`: determine buyer and seller from
`taker_side`, then (1) check and debit the buyer's frozen quote, (2) credit
the buyer's available base, (3) check and debit the seller's frozen base,
(4) credit the seller's available quote.  As in the source, an error return
keeps whatever mutations already happened (`&mut self`). -/
def settle_trade (m : Balances) (trade : Trade) (market : MarketPair) :
    Except OMError Unit × Balances :=
  let bs : ℕ × ℕ :=
    match trade.taker_side with
    | Side.buy => (trade.taker_user_id, trade.maker_user_id)
    | Side.sell => (trade.maker_user_id, trade.taker_user_id)
  let buyer := bs.1
  let seller := bs.2
  let buyer_quote := getBal m buyer market.quote
  if buyer_quote.frozen < trade.quote_amount then
    (Except.error OMError.InsufficientFrozen, m)
  else
    let m1 := setBal m buyer market.quote
      { buyer_quote with frozen := buyer_quote.frozen - trade.quote_amount }
    let buyer_base := getBal m1 buyer market.base
    let m2 := setBal m1 buyer market.base
      { buyer_base with available := buyer_base.available + trade.quantity }
    let seller_base := getBal m2 seller market.base
    if seller_base.frozen < trade.quantity then
      (Except.error OMError.InsufficientFrozen, m2)
    else
      let m3 := setBal m2 seller market.base
        { seller_base with frozen := seller_base.frozen - trade.quantity }
      let seller_quote := getBal m3 seller market.quote
      (Except.ok (),
       setBal m3 seller market.quote
         { seller_quote with available := seller_quote.available + trade.quote_amount })

/-! ## Settlement idempotency guard
(`openmatch-core/src/security.rs` `SettlementIdempotencyGuard` and the
identical `openmatch-settlement/src/idempotency.rs` `IdempotencyGuard`) -/

/-- Guard state: the source keeps a `HashSet` of settled ids plus a
`VecDeque` in insertion order, always containing the same ids; the model
keeps the insertion-ordered list (front = oldest), whose elements are the
settled set. -/
structure IdemGuard where
  order : List TradeIdM
  max_size : ℕ
deriving DecidableEq

/-- `mark_settled`: reject an id that is still retained, otherwise evict
the oldest entry when at capacity and insert at the back. -/
def IdemGuard.mark_settled (g : IdemGuard) (trade_id : TradeIdM) :
    Except OMError Unit × IdemGuard :=
  if trade_id ∈ g.order then
    (Except.error (OMError.TradeAlreadySettled trade_id), g)
  else
    let afterEvict := if g.max_size ≤ g.order.length then g.order.drop 1 else g.order
    (Except.ok (), { g with order := afterEvict ++ [trade_id] })

/-- `is_settled`. -/
def IdemGuard.is_settled (g : IdemGuard) (trade_id : TradeIdM) : Prop :=
  trade_id ∈ g.order

/-! ## Withdraw locks -/

/-- `EpochPhase` from `openmatch-types/src/epoch.rs`: the four
non-overlapping phases of an epoch. -/
inductive EpochPhase
  | collect
  | seal
  | matchPhase
  | finalize
deriving DecidableEq

/-- `WithdrawLock` from `openmatch-settlement/src/withdraw_lock.rs`
(phase only; this lock has no emergency flag). -/
structure WithdrawLock where
  current_phase : EpochPhase
deriving DecidableEq

/-- `WithdrawLock::withdrawals_allowed`: permitted exactly in the `Collect`
and `Seal` phases. -/
def WithdrawLock.withdrawals_allowed (l : WithdrawLock) : Bool :=
  match l.current_phase with
  | EpochPhase.collect => true
  | EpochPhase.seal => true
  | EpochPhase.matchPhase => false
  | EpochPhase.finalize => false

/-- `WithdrawLock::check_withdraw`. -/
def WithdrawLock.check_withdraw (l : WithdrawLock) : Except OMError Unit :=
  if l.withdrawals_allowed then Except.ok ()
  else Except.error OMError.WithdrawLockedDuringSettle

/-- The epoch phase enum that `openmatch-core/src/security.rs` is written
against: its `WithdrawLock::check_withdraw_allowed` matches on `Collect`,
`Match | Settle`.  `Settle` is not a variant of the
`openmatch_types::EpochPhase` above (whose variants are `Collect`, `Seal`,
`Match`, `Finalize`) and no arm covers `Seal` or `Finalize`, so that crate
does not compile against the types crate of this repository; this enum
reproduces the phase set the core file actually handles. -/
inductive CorePhase
  | collect
  | matchPhase
  | settle
deriving DecidableEq

/-- `WithdrawLock` from `openmatch-core/src/security.rs`: phase plus the
emergency lock flag. -/
structure CoreWithdrawLock where
  current_phase : CorePhase
  emergency_lock : Bool
deriving DecidableEq

/-- `WithdrawLock::check_withdraw_allowed` from
`openmatch-core/src/security.rs`: emergency lock rejects, then `Collect`
passes and `Match | Settle` reject. -/
def CoreWithdrawLock.check_withdraw_allowed (l : CoreWithdrawLock) :
    Except OMError Unit :=
  if l.emergency_lock then Except.error OMError.WithdrawLockedDuringSettle
  else
    match l.current_phase with
    | CorePhase.collect => Except.ok ()
    | CorePhase.matchPhase => Except.error OMError.WithdrawLockedDuringSettle
    | CorePhase.settle => Except.error OMError.WithdrawLockedDuringSettle

/-! ## Supply conservation (`openmatch-core/src/security.rs`) -/

/-- An `Asset → Decimal` map as an association list. -/
abbrev AssetMap := List (ℕ × ℚ)

/-- Map lookup defaulting to zero (`get(asset).copied().unwrap_or(ZERO)`). -/
def lookupAmt (m : AssetMap) (a : ℕ) : ℚ :=
  ((m.find? fun e => decide (e.1 = a)).map Prod.snd).getD 0

/-- `entry(asset).or_default() += amount`. -/
def addAmt (m : AssetMap) (a : ℕ) (x : ℚ) : AssetMap :=
  if (m.find? fun e => decide (e.1 = a)).isSome then
    m.map fun e => if e.1 = a then (e.1, e.2 + x) else e
  else m ++ [(a, x)]

/-- `SupplyConservation` state (`openmatch-core/src/security.rs`). -/
structure SupplyConservation where
  total_deposits : AssetMap
  total_withdrawals : AssetMap
deriving DecidableEq

/-- `SupplyConservation::record_deposit`. -/
def SupplyConservation.record_deposit (s : SupplyConservation) (a : ℕ) (x : ℚ) :
    SupplyConservation :=
  { s with total_deposits := addAmt s.total_deposits a x }

/-- `SupplyConservation::record_withdrawal`. -/
def SupplyConservation.record_withdrawal (s : SupplyConservation) (a : ℕ) (x : ℚ) :
    SupplyConservation :=
  { s with total_withdrawals := addAmt s.total_withdrawals a x }

/-- The per-asset loop of `SupplyConservation::verify`: the first asset
whose expected total (deposits − withdrawals) differs from its actual total
produces `SupplyInvariantViolation`.  The source iterates over a `HashSet`
of the assets in unspecified order; whether an error is produced does not
depend on the order, which is all the embedded theorems use. -/
def checkAssets (s : SupplyConservation) (actual : AssetMap) :
    List ℕ → Except OMError Unit
  | [] => Except.ok ()
  | a :: rest =>
    let expected := lookupAmt s.total_deposits a - lookupAmt s.total_withdrawals a
    let actualAmt := lookupAmt actual a
    if expected ≠ actualAmt then Except.error OMError.SupplyInvariantViolation
    else checkAssets s actual rest

/-- `SupplyConservation::verify`: check every asset seen in the deposit
map, the withdrawal map or the supplied actual totals. -/
def SupplyConservation.verify (s : SupplyConservation) (actual : AssetMap) :
    Except OMError Unit :=
  checkAssets s actual
    (s.total_deposits.map Prod.fst ++ s.total_withdrawals.map Prod.fst ++
      actual.map Prod.fst)

/-- `SecuredBalanceManager` (`openmatch-core/src/security.rs`): the inner
ledger, the settlement guard, the supply tracker and the operation counter
(the withdraw-lock field is the core lock above). -/
structure SecuredBalanceManager where
  inner : Balances
  settlement_guard : IdemGuard
  withdraw_lock : CoreWithdrawLock
  supply_tracker : SupplyConservation
  ops_count : ℕ

/-- `SecuredBalanceManager::compute_actual_totals`: the source builds an
empty map, never iterates the inner ledger (its own comments call it a
placeholder) and returns the empty map. -/
def SecuredBalanceManager.compute_actual_totals (m : SecuredBalanceManager) :
    AssetMap :=
  []

/-- `SecuredBalanceManager::verify_supply_conservation`: verify the supply
tracker against `compute_actual_totals`. -/
def SecuredBalanceManager.verify_supply_conservation (m : SecuredBalanceManager) :
    Except OMError Unit :=
  m.supply_tracker.verify m.compute_actual_totals

/-- The seal arrangement exactly as the specification words it: every Buy
before every Sell; among Buys descending effective price; among Sells
ascending effective price; equal keys broken by ascending sequence. -/
def claimOrder (a b : Order) : Prop :=
  (a.side = Side.buy ∧ b.side = Side.sell)
  ∨ (a.side = Side.buy ∧ b.side = Side.buy ∧
      (effective_price b < effective_price a ∨
        (effective_price a = effective_price b ∧ a.sequence ≤ b.sequence)))
  ∨ (a.side = Side.sell ∧ b.side = Side.sell ∧
      (effective_price a < effective_price b ∨
        (effective_price a = effective_price b ∧ a.sequence ≤ b.sequence)))

/-! ## Concrete instances used by counterexamples and witnesses -/

/-- A ledger where user 0 has 50000 of asset 1 frozen and everything else
is zero. -/
def c1State : Balances :=
  fun k => if k = (0, 1) then ⟨0, 50000⟩ else ⟨0, 0⟩

/-- A trade of 1 unit of base asset 0 against 50000 of quote asset 1, taker
buying: buyer is user 0, seller is user 1. -/
def c1Trade : Trade :=
  { id := (1, 0), batch_id := 1,
    taker_order_id := 10, taker_user_id := 0,
    maker_order_id := 11, maker_user_id := 1,
    price := 50000, quantity := 1, quote_amount := 50000,
    taker_side := Side.buy, matcher_node := 0, executed_at := 0 }

/-- The market with base asset 0 and quote asset 1. -/
def c1Market : MarketPair := ⟨0, 1⟩

/-- A concrete limit buy: user 1, 5 units at price 100, sequence 0. -/
def wBuy : Order :=
  { id := 1, user_id := 1, side := Side.buy, order_type := OType.limit,
    price := some 100, quantity := 5, remaining_qty := 5, sequence := 0 }

/-- A concrete limit sell: user 2, 5 units at price 100, sequence 1. -/
def wSell : Order :=
  { id := 2, user_id := 2, side := Side.sell, order_type := OType.limit,
    price := some 100, quantity := 5, remaining_qty := 5, sequence := 1 }

/-!
# Theorems

Helper lemmas first, then one theorem per claim (with witnesses and
counterexamples where required).
-/

/-- Unfolding lemma for the per-asset verification loop. -/
theorem checkAssets_ok_iff (s : SupplyConservation) (actual : AssetMap)
    (l : List ℕ) :
    checkAssets s actual l = Except.ok () ↔
      ∀ a ∈ l,
        lookupAmt s.total_deposits a - lookupAmt s.total_withdrawals a =
          lookupAmt actual a := by
  induction l with
  | nil => simp [checkAssets]
  | cons a rest ih =>
    simp only [checkAssets]
    split
    · rename_i hne
      simp [List.forall_mem_cons, hne]
    · rename_i heq
      simp [List.forall_mem_cons, ih, not_not.mp heq]

/-- The verification loop returns `ok` or the supply violation error. -/
theorem checkAssets_ok_or_err (s : SupplyConservation) (actual : AssetMap)
    (l : List ℕ) :
    checkAssets s actual l = Except.ok () ∨
      checkAssets s actual l = Except.error OMError.SupplyInvariantViolation := by
  induction l with
  | nil => left; rfl
  | cons a rest ih =>
    simp only [checkAssets]
    split
    · right; rfl
    · exact ih

/-- C1: the claim states that a failing `settle_trade` leaves all four
affected subaccounts unchanged.  On the embedded
`BalanceManager::settle_trade` this is false: with the buyer's frozen quote
sufficient and the seller's frozen base insufficient, the call returns
`InsufficientFrozen` but the buyer's quote frozen balance and base available
balance have already been mutated. -/
theorem settle_trade_partial_on_error :
    (settle_trade c1State c1Trade c1Market).1 = Except.error OMError.InsufficientFrozen
    ∧ getBal (settle_trade c1State c1Trade c1Market).2 0 1 ≠ getBal c1State 0 1
    ∧ getBal (settle_trade c1State c1Trade c1Market).2 0 0 ≠ getBal c1State 0 0 := by
  refine ⟨rfl, ?_, ?_⟩
  · norm_num [settle_trade, c1State, c1Trade, c1Market, getBal, setBal,
      BalanceEntry.mk.injEq, Prod.mk.injEq, Prod.ext_iff]
  · norm_num [settle_trade, c1State, c1Trade, c1Market, getBal, setBal,
      BalanceEntry.mk.injEq, Prod.mk.injEq, Prod.ext_iff]

/-- C6 counterexample: the claim states that `mark_settled` fails with
`TradeAlreadySettled` on every subsequent call with the same id no matter
how many other ids are marked in between.  With `max_size = 1`, marking one
other id evicts the first id, and re-marking it succeeds instead of
failing. -/
theorem mark_settled_remark_after_eviction :
    ((IdemGuard.mark_settled ⟨[], 1⟩ (1, 0)).1 = Except.ok ())
    ∧ (((IdemGuard.mark_settled ⟨[], 1⟩ (1, 0)).2.mark_settled (1, 1)).1 = Except.ok ())
    ∧ ((((IdemGuard.mark_settled ⟨[], 1⟩ (1, 0)).2.mark_settled (1, 1)).2.mark_settled (1, 0)).1
        = Except.ok ())
    ∧ ((((IdemGuard.mark_settled ⟨[], 1⟩ (1, 0)).2.mark_settled (1, 1)).2.mark_settled (1, 0)).1
        ≠ Except.error (OMError.TradeAlreadySettled (1, 0))) := by
  refine ⟨rfl, rfl, rfl, ?_⟩
  have h3 : ((((IdemGuard.mark_settled ⟨[], 1⟩ (1, 0)).2.mark_settled (1, 1)).2.mark_settled
      (1, 0)).1 : Except OMError Unit) = Except.ok () := rfl
  rw [h3]
  exact fun h => Except.noConfusion h

/-- C6 (amended): `mark_settled` succeeds exactly when the id is not
currently retained by the guard; while the id is retained (it has not been
evicted by the bounded LRU) a repeated call returns `TradeAlreadySettled`
and leaves the guard unchanged; a successful call inserts the id. -/
theorem mark_settled_idempotency (g : IdemGuard) (id : TradeIdM) :
    ((g.mark_settled id).1 = Except.error (OMError.TradeAlreadySettled id) ↔ id ∈ g.order)
    ∧ (id ∈ g.order → (g.mark_settled id).2 = g)
    ∧ (id ∉ g.order →
        (g.mark_settled id).1 = Except.ok () ∧ id ∈ (g.mark_settled id).2.order) := by
  unfold IdemGuard.mark_settled
  by_cases h : id ∈ g.order
  · simp [h]
  · simp [h]

/-- C6 witness: the amended theorem applied to a concrete retained id. -/
theorem mark_settled_idempotency_witness :
    ((1, 0) : TradeIdM) ∈ ([((1, 0) : TradeIdM)] : List TradeIdM)
    ∧ (IdemGuard.mark_settled ⟨[(1, 0)], 2⟩ (1, 0)).2 = (⟨[(1, 0)], 2⟩ : IdemGuard) :=
  ⟨by decide, (mark_settled_idempotency ⟨[(1, 0)], 2⟩ (1, 0)).2.1 (by decide)⟩

/-- C8: the settlement crate's `WithdrawLock::check_withdraw` rejects with
`WithdrawLockedDuringSettle` exactly in the `Match` and `Finalize` phases
(permitting `Collect` and `Seal`), which is the claimed policy; the core
crate's `WithdrawLock::check_withdraw_allowed`, which carries the emergency
flag, only decides the three phases `Collect`, `Match`, `Settle` of its own
phase set — it has no case for `Seal` or `Finalize` at all. -/
theorem withdraw_lock_policies :
    (∀ l : WithdrawLock,
      l.check_withdraw = Except.error OMError.WithdrawLockedDuringSettle
        ↔ (l.current_phase = EpochPhase.matchPhase ∨ l.current_phase = EpochPhase.finalize))
    ∧ (∀ l : CoreWithdrawLock,
      l.check_withdraw_allowed = Except.error OMError.WithdrawLockedDuringSettle
        ↔ (l.emergency_lock = true ∨ l.current_phase = CorePhase.matchPhase
            ∨ l.current_phase = CorePhase.settle)) := by
  constructor
  · intro l
    rcases l with ⟨p⟩
    cases p <;>
      simp [WithdrawLock.check_withdraw, WithdrawLock.withdrawals_allowed]
  · intro l
    rcases l with ⟨p, e⟩
    cases p <;> cases e <;> simp [CoreWithdrawLock.check_withdraw_allowed]

/-- C10: `verify_supply_conservation` compares the tracker against the
always-empty map produced by `compute_actual_totals`; it returns `ok`
exactly when every asset recorded in the deposit or withdrawal maps has
equal recorded deposits and withdrawals, and returns
`SupplyInvariantViolation` exactly otherwise — independently of the inner
ledger's actual per-user balances (the manager `m` is arbitrary). -/
theorem verify_supply_conservation_spec (m : SecuredBalanceManager) :
    (m.verify_supply_conservation = Except.ok () ↔
      ∀ a ∈ m.supply_tracker.total_deposits.map Prod.fst ++
            m.supply_tracker.total_withdrawals.map Prod.fst,
        lookupAmt m.supply_tracker.total_deposits a =
          lookupAmt m.supply_tracker.total_withdrawals a)
    ∧ (m.verify_supply_conservation = Except.error OMError.SupplyInvariantViolation ↔
      ∃ a ∈ m.supply_tracker.total_deposits.map Prod.fst ++
            m.supply_tracker.total_withdrawals.map Prod.fst,
        lookupAmt m.supply_tracker.total_deposits a ≠
          lookupAmt m.supply_tracker.total_withdrawals a) := by
  have h0 : ∀ a, lookupAmt ([] : AssetMap) a = 0 := fun a => rfl
  have hok :
      m.verify_supply_conservation = Except.ok () ↔
        ∀ a ∈ m.supply_tracker.total_deposits.map Prod.fst ++
              m.supply_tracker.total_withdrawals.map Prod.fst,
          lookupAmt m.supply_tracker.total_deposits a =
            lookupAmt m.supply_tracker.total_withdrawals a := by
    unfold SecuredBalanceManager.verify_supply_conservation
      SupplyConservation.verify SecuredBalanceManager.compute_actual_totals
    rw [checkAssets_ok_iff]
    simp [h0, sub_eq_zero]
  refine ⟨hok, ?_⟩
  constructor
  · intro herr
    by_contra hno
    push_neg at hno
    have : m.verify_supply_conservation = Except.ok () := by
      rw [hok]
      intro a ha
      exact hno a ha
    rw [this] at herr
    exact Except.noConfusion herr
  · intro ⟨a, ha, hne⟩
    rcases checkAssets_ok_or_err m.supply_tracker m.compute_actual_totals
        (m.supply_tracker.total_deposits.map Prod.fst ++
          m.supply_tracker.total_withdrawals.map Prod.fst ++
          (m.compute_actual_totals).map Prod.fst) with hokk | herrr
    · exfalso
      have : m.verify_supply_conservation = Except.ok () := hokk
      rw [hok] at this
      exact hne (this a ha)
    · exact herrr

/-- Membership in `insertPrice`. -/
theorem mem_insertPrice (p : ℚ) (l : List ℚ) (x : ℚ) :
    x ∈ insertPrice p l ↔ x = p ∨ x ∈ l := by
  induction l with
  | nil => simp [insertPrice]
  | cons q qs ih =>
    simp only [insertPrice]
    split
    · simp only [List.mem_cons]
      try tauto
    · split
      · rename_i hpq
        subst hpq
        simp only [List.mem_cons]
        try tauto
      · simp only [List.mem_cons, ih]
        try tauto

/-- `insertPrice` keeps the list strictly ascending. -/
theorem pairwise_insertPrice (p : ℚ) (l : List ℚ)
    (h : List.Pairwise (· < ·) l) :
    List.Pairwise (· < ·) (insertPrice p l) := by
  induction l with
  | nil => simp [insertPrice]
  | cons q qs ih =>
    rcases List.pairwise_cons.mp h with ⟨hq, hqs⟩
    simp only [insertPrice]
    split
    · rename_i hlt
      refine List.pairwise_cons.mpr ⟨?_, h⟩
      intro x hx
      rcases List.mem_cons.mp hx with rfl | hx
      · exact hlt
      · exact lt_trans hlt (hq x hx)
    · split
      · exact h
      · rename_i h1 h2
        have hqp : q < p := lt_of_le_of_ne (not_lt.mp h1) fun e => h2 e.symm
        refine List.pairwise_cons.mpr ⟨?_, ih hqs⟩
        intro x hx
        rcases (mem_insertPrice p qs x).mp hx with rfl | hx
        · exact hqp
        · exact hq x hx

/-- Membership in the candidate fold, generalised over the accumulator. -/
theorem candidateSet_go_mem (os : List Order) :
    ∀ (acc : List ℚ) (x : ℚ),
      x ∈ os.foldl
        (fun acc o =>
          if effective_price o ≠ DMAX then insertPrice (effective_price o) acc
          else acc) acc
      ↔ (∃ o ∈ os, effective_price o = x ∧ x ≠ DMAX) ∨ x ∈ acc := by
  induction os with
  | nil => simp
  | cons o rest ih =>
    intro acc x
    rw [List.foldl_cons, ih]
    by_cases h : effective_price o ≠ DMAX
    · rw [if_pos h]
      simp only [mem_insertPrice, List.exists_mem_cons_iff]
      constructor
      · rintro (h1 | (rfl | h2))
        · exact Or.inl (Or.inr h1)
        · exact Or.inl (Or.inl ⟨rfl, h⟩)
        · exact Or.inr h2
      · rintro ((⟨rfl, _⟩ | h1) | h2)
        · exact Or.inr (Or.inl rfl)
        · exact Or.inl h1
        · exact Or.inr (Or.inr h2)
    · rw [if_neg h]
      simp only [List.exists_mem_cons_iff]
      constructor
      · rintro (h1 | h2)
        · exact Or.inl (Or.inr h1)
        · exact Or.inr h2
      · rintro ((⟨rfl, hne⟩ | h1) | h2)
        · exact absurd hne h
        · exact Or.inl h1
        · exact Or.inr h2

/-- The candidate fold keeps the accumulator strictly ascending. -/
theorem candidateSet_go_pairwise (os : List Order) :
    ∀ acc : List ℚ,
      List.Pairwise (· < ·) acc →
      List.Pairwise (· < ·)
        (os.foldl
          (fun acc o =>
            if effective_price o ≠ DMAX then insertPrice (effective_price o) acc
            else acc) acc) := by
  induction os with
  | nil => intro acc h; simpa using h
  | cons o rest ih =>
    intro acc h
    rw [List.foldl_cons]
    apply ih
    by_cases hp : effective_price o ≠ DMAX
    · rw [if_pos hp]
      exact pairwise_insertPrice _ _ h
    · rw [if_neg hp]
      exact h

/-- Membership in the candidate price set: exactly the non-sentinel
effective prices of the given orders. -/
theorem candidateSet_mem (os : List Order) (x : ℚ) :
    x ∈ candidateSet os ↔ ∃ o ∈ os, effective_price o = x ∧ x ≠ DMAX := by
  unfold candidateSet
  rw [candidateSet_go_mem]
  simp

/-- The candidate price set is strictly ascending. -/
theorem candidateSet_pairwise (os : List Order) :
    List.Pairwise (· < ·) (candidateSet os) :=
  candidateSet_go_pairwise os [] (List.Pairwise.nil)

/-- The clearing preference order is transitive. -/
theorem clearingLT_trans (buys sells : List Order) {p q r : ℚ}
    (h1 : clearingLT buys sells p q) (h2 : clearingLT buys sells q r) :
    clearingLT buys sells p r := by
  rcases h1 with h1 | ⟨e1, i1⟩ | ⟨e1, j1, l1⟩ <;>
    rcases h2 with h2 | ⟨e2, i2⟩ | ⟨e2, j2, l2⟩
  · exact Or.inl (lt_trans h1 h2)
  · exact Or.inl (e2 ▸ h1)
  · exact Or.inl (e2 ▸ h1)
  · exact Or.inl (e1 ▸ h2)
  · exact Or.inr (Or.inl ⟨e1.trans e2, lt_trans i2 i1⟩)
  · exact Or.inr (Or.inl ⟨e1.trans e2, j2 ▸ i1⟩)
  · exact Or.inl (e1 ▸ h2)
  · exact Or.inr (Or.inl ⟨e1.trans e2, j1 ▸ i2⟩)
  · exact Or.inr (Or.inr ⟨e1.trans e2, j1.trans j2, lt_trans l1 l2⟩)

/-- `matchable` is non-negative whenever all remaining quantities are. -/
theorem matchableAt_nonneg (buys sells : List Order)
    (h : ∀ o ∈ buys ++ sells, 0 ≤ o.remaining_qty) (p : ℚ) :
    0 ≤ matchableAt buys sells p := by
  have hd : 0 ≤ demandAt buys p := by
    apply List.sum_nonneg
    intro x hx
    rcases List.mem_map.mp hx with ⟨o, ho, rfl⟩
    exact h o (List.mem_append.mpr (Or.inl (List.mem_filter.mp ho).1))
  have hs : 0 ≤ supplyAt sells p := by
    apply List.sum_nonneg
    intro x hx
    rcases List.mem_map.mp hx with ⟨o, ho, rfl⟩
    exact h o (List.mem_append.mpr (Or.inr (List.mem_filter.mp ho).1))
  exact le_min hd hs

/-- Unfolding of `considerCandidate` with no current best. -/
theorem considerCandidate_none (buys sells : List Order) (p : ℚ) :
    considerCandidate buys sells none p =
      if matchableAt buys sells p = 0 then none
      else some ⟨p, matchableAt buys sells p, demandAt buys p, supplyAt sells p⟩ :=
  rfl

/-- Unfolding of `considerCandidate` with a current best. -/
theorem considerCandidate_some (buys sells : List Order)
    (cur : ClearingResult) (p : ℚ) :
    considerCandidate buys sells (some cur) p =
      if matchableAt buys sells p = 0 then some cur
      else if cur.volume < matchableAt buys sells p then
        some ⟨p, matchableAt buys sells p, demandAt buys p, supplyAt sells p⟩
      else if matchableAt buys sells p = cur.volume then
        if imbalanceAt buys sells p < |cur.demand - cur.supply| then
          some ⟨p, matchableAt buys sells p, demandAt buys p, supplyAt sells p⟩
        else if imbalanceAt buys sells p = |cur.demand - cur.supply| then
          if cur.price < p then
            some ⟨p, matchableAt buys sells p, demandAt buys p, supplyAt sells p⟩
          else some cur
        else some cur
      else some cur :=
  rfl

/-- A new best candidate beats all previously processed prices. -/
theorem promote_all {buys sells : List Order} {processed : List ℚ} {cp p : ℚ}
    (hbest : ∀ q ∈ processed, q ≠ cp → clearingLT buys sells q cp)
    (hcp : clearingLT buys sells cp p) :
    ∀ q ∈ processed ++ [p], q ≠ p → clearingLT buys sells q p := by
  intro q hq hne
  rcases List.mem_append.mp hq with hq | hq
  · by_cases hqc : q = cp
    · subst hqc
      exact hcp
    · exact clearingLT_trans buys sells (hbest q hq hqc) hcp
  · rcases List.mem_singleton.mp hq with rfl
    exact absurd rfl hne

/-- A kept best candidate still beats all processed prices including the
newly considered one. -/
theorem keep_all {buys sells : List Order} {processed : List ℚ} {cp p : ℚ}
    (hbest : ∀ q ∈ processed, q ≠ cp → clearingLT buys sells q cp)
    (hp : clearingLT buys sells p cp) :
    ∀ q ∈ processed ++ [p], q ≠ cp → clearingLT buys sells q cp := by
  intro q hq hne
  rcases List.mem_append.mp hq with hq | hq
  · exact hbest q hq hne
  · rcases List.mem_singleton.mp hq with rfl
    exact hp

/-- Invariant preservation for the whole candidate fold. -/
theorem foldl_considerCandidate_inv (buys sells : List Order)
    (hnn : ∀ x, 0 ≤ matchableAt buys sells x) :
    ∀ (l processed : List ℚ) (best : Option ClearingResult),
      (∀ q ∈ processed, ∀ x ∈ l, q < x) →
      List.Pairwise (· < ·) l →
      clearingInv buys sells processed best →
      clearingInv buys sells (processed ++ l)
        (l.foldl (considerCandidate buys sells) best) := by
  intro l
  induction l with
  | nil =>
    intro processed best _ _ hinv
    simpa using hinv
  | cons p rest ih =>
    intro processed best hlt hpw hinv
    rw [List.foldl_cons]
    have hp_rest : ∀ x ∈ rest, p < x := (List.pairwise_cons.mp hpw).1
    have hlt' : ∀ q ∈ processed ++ [p], ∀ x ∈ rest, q < x := by
      intro q hq x hx
      rcases List.mem_append.mp hq with hq | hq
      · exact hlt q hq x (List.mem_cons_of_mem p hx)
      · rcases List.mem_singleton.mp hq with rfl
        exact hp_rest x hx
    have hstep :
        clearingInv buys sells (processed ++ [p])
          (considerCandidate buys sells best p) := by
      by_cases hm : matchableAt buys sells p = 0
      · cases best with
        | none =>
          rw [considerCandidate_none, if_pos hm]
          simp only [clearingInv] at hinv ⊢
          intro q hq
          rcases List.mem_append.mp hq with hq | hq
          · exact hinv q hq
          · rcases List.mem_singleton.mp hq with rfl
            exact hm
        | some r =>
          rw [considerCandidate_some, if_pos hm]
          simp only [clearingInv] at hinv ⊢
          obtain ⟨hmem, hnz, hvol, hdem, hsup, hbest⟩ := hinv
          refine ⟨List.mem_append.mpr (Or.inl hmem), hnz, hvol, hdem, hsup, ?_⟩
          intro q hq hne
          rcases List.mem_append.mp hq with hq | hq
          · exact hbest q hq hne
          · rcases List.mem_singleton.mp hq with rfl
            exact Or.inl (by
              rw [hm]
              exact lt_of_le_of_ne (hnn r.price) (Ne.symm hnz))
      · have hmpos : 0 < matchableAt buys sells p :=
          lt_of_le_of_ne (hnn p) (Ne.symm hm)
        cases best with
        | none =>
          rw [considerCandidate_none, if_neg hm]
          simp only [clearingInv] at hinv ⊢
          refine ⟨List.mem_append.mpr (Or.inr (List.mem_singleton_self p)), ?_, ?_, ?_, ?_, ?_⟩
          · exact hm
          · trivial
          · trivial
          · trivial
          · intro q hq hne
            rcases List.mem_append.mp hq with hq | hq
            · exact Or.inl (by
                rw [hinv q hq]
                exact hmpos)
            · rcases List.mem_singleton.mp hq with rfl
              exact absurd rfl hne
        | some cur =>
          rw [considerCandidate_some, if_neg hm]
          simp only [clearingInv] at hinv
          obtain ⟨hmem, hnz, hvol, hdem, hsup, hbest⟩ := hinv
          have hcur_lt_p : cur.price < p :=
            hlt cur.price hmem p (List.mem_cons_self p rest)
          have himb : imbalanceAt buys sells cur.price = |cur.demand - cur.supply| := by
            rw [imbalanceAt, ← hdem, ← hsup]
          by_cases h1 : cur.volume < matchableAt buys sells p
          · rw [if_pos h1]
            have hcp : clearingLT buys sells cur.price p :=
              Or.inl (by rw [← hvol]; exact h1)
            simp only [clearingInv]
            refine ⟨List.mem_append.mpr (Or.inr (List.mem_singleton_self p)), ?_, ?_, ?_, ?_,
              promote_all hbest hcp⟩
            · exact hm
            · trivial
            · trivial
            · trivial
          · rw [if_neg h1]
            by_cases h2 : matchableAt buys sells p = cur.volume
            · rw [if_pos h2]
              by_cases h3 : imbalanceAt buys sells p < |cur.demand - cur.supply|
              · rw [if_pos h3]
                have hcp : clearingLT buys sells cur.price p :=
                  Or.inr (Or.inl ⟨by rw [← hvol, h2], by rw [himb]; exact h3⟩)
                simp only [clearingInv]
                refine ⟨List.mem_append.mpr (Or.inr (List.mem_singleton_self p)), ?_, ?_, ?_, ?_,
                  promote_all hbest hcp⟩
                · exact hm
                · trivial
                · trivial
                · trivial
              · rw [if_neg h3]
                by_cases h4 : imbalanceAt buys sells p = |cur.demand - cur.supply|
                · rw [if_pos h4, if_pos hcur_lt_p]
                  have hcp : clearingLT buys sells cur.price p :=
                    Or.inr (Or.inr ⟨by rw [← hvol, h2], by rw [himb, h4], hcur_lt_p⟩)
                  simp only [clearingInv]
                  refine ⟨List.mem_append.mpr (Or.inr (List.mem_singleton_self p)), ?_, ?_, ?_, ?_,
                    promote_all hbest hcp⟩
                  · exact hm
                  · trivial
                  · trivial
                  · trivial
                · rw [if_neg h4]
                  have hp : clearingLT buys sells p cur.price :=
                    Or.inr (Or.inl ⟨by rw [← hvol, h2], by
                      rw [himb]
                      exact lt_of_le_of_ne (not_lt.mp h3) (Ne.symm h4)⟩)
                  simp only [clearingInv]
                  exact ⟨List.mem_append.mpr (Or.inl hmem), hnz, hvol, hdem, hsup,
                    keep_all hbest hp⟩
            · rw [if_neg h2]
              have hp : clearingLT buys sells p cur.price :=
                Or.inl (by
                  rw [← hvol]
                  exact lt_of_le_of_ne (not_lt.mp h1) h2)
              simp only [clearingInv]
              exact ⟨List.mem_append.mpr (Or.inl hmem), hnz, hvol, hdem, hsup,
                keep_all hbest hp⟩
    have hres := ih (processed ++ [p]) (considerCandidate buys sells best p)
      hlt' (List.pairwise_cons.mp hpw).2 hstep
    simpa [List.append_assoc] using hres

/-- C5: the clearing solver returns `none` exactly when either side is
empty, the candidate price set (the finite effective prices) is empty, or
no candidate has positive matchable volume; otherwise it returns a
candidate price with positive matchable volume that strictly beats every
other candidate under the order: larger `matchable = min(demand, supply)`,
then smaller `|demand − supply|`, then higher price — where `demand(p)`
sums remaining quantity of buys with effective price `≥ p` and `supply(p)`
of sells with effective price `≤ p`. -/
theorem compute_clearing_price_spec (buys sells : List Order)
    (hq : ∀ o ∈ buys ++ sells, 0 ≤ o.remaining_qty) :
    (compute_clearing_price buys sells = none ↔
      buys = [] ∨ sells = [] ∨ candidateSet (buys ++ sells) = [] ∨
        ∀ p ∈ candidateSet (buys ++ sells), ¬ 0 < matchableAt buys sells p)
    ∧ (∀ r, compute_clearing_price buys sells = some r →
        r.price ∈ candidateSet (buys ++ sells)
        ∧ 0 < matchableAt buys sells r.price
        ∧ r.volume = matchableAt buys sells r.price
        ∧ r.demand = demandAt buys r.price
        ∧ r.supply = supplyAt sells r.price
        ∧ ∀ p ∈ candidateSet (buys ++ sells), p ≠ r.price →
            clearingLT buys sells p r.price)
    ∧ (∀ x, x ∈ candidateSet (buys ++ sells) ↔
        ∃ o ∈ buys ++ sells, effective_price o = x ∧ x ≠ DMAX) := by
  have hnn := matchableAt_nonneg buys sells hq
  refine ⟨?_, ?_, fun x => candidateSet_mem (buys ++ sells) x⟩ <;>
    unfold compute_clearing_price
  · by_cases hempty : buys = [] ∨ sells = []
    · rw [if_pos hempty]
      constructor
      · intro _
        rcases hempty with h | h
        · exact Or.inl h
        · exact Or.inr (Or.inl h)
      · intro _
        rfl
    · rw [if_neg hempty]
      by_cases hcs : candidateSet (buys ++ sells) = []
      · rw [if_pos hcs]
        constructor
        · intro _
          exact Or.inr (Or.inr (Or.inl hcs))
        · intro _
          rfl
      · rw [if_neg hcs]
        have hinv := foldl_considerCandidate_inv buys sells hnn
          (candidateSet (buys ++ sells)) [] none (by simp)
          (candidateSet_pairwise (buys ++ sells)) (by simp [clearingInv])
        rw [List.nil_append] at hinv
        push_neg at hempty
        cases hres : (candidateSet (buys ++ sells)).foldl
            (considerCandidate buys sells) none with
        | none =>
          rw [hres] at hinv
          simp only [clearingInv] at hinv
          constructor
          · intro _
            refine Or.inr (Or.inr (Or.inr ?_))
            intro p hp
            rw [hinv p hp]
            exact lt_irrefl 0
          · intro _
            rfl
        | some r =>
          rw [hres] at hinv
          simp only [clearingInv] at hinv
          obtain ⟨hmem, hnz, _⟩ := hinv
          constructor
          · intro h
            exact Option.noConfusion h
          · intro h
            rcases h with h | h | h | h
            · exact absurd h hempty.1
            · exact absurd h hempty.2
            · exact absurd h hcs
            · exact absurd (lt_of_le_of_ne (hnn r.price) (Ne.symm hnz)) (h r.price hmem)
  · intro r hr
    by_cases hempty : buys = [] ∨ sells = []
    · rw [if_pos hempty] at hr
      exact Option.noConfusion hr
    · rw [if_neg hempty] at hr
      by_cases hcs : candidateSet (buys ++ sells) = []
      · rw [if_pos hcs] at hr
        exact Option.noConfusion hr
      · rw [if_neg hcs] at hr
        have hinv := foldl_considerCandidate_inv buys sells hnn
          (candidateSet (buys ++ sells)) [] none (by simp)
          (candidateSet_pairwise (buys ++ sells)) (by simp [clearingInv])
        rw [List.nil_append, hr] at hinv
        simp only [clearingInv] at hinv
        obtain ⟨hmem, hnz, hvol, hdem, hsup, hbest⟩ := hinv
        exact ⟨hmem, lt_of_le_of_ne (hnn r.price) (Ne.symm hnz), hvol, hdem, hsup,
          hbest⟩

/-- C5 witness: the spec theorem applied to one crossing buy and sell at
price 100; the hypothesis is discharged on the concrete orders. -/
theorem compute_clearing_price_spec_witness :
    (∀ o ∈ [wBuy] ++ [wSell], 0 ≤ o.remaining_qty)
    ∧ ((compute_clearing_price [wBuy] [wSell] = none ↔
        [wBuy] = [] ∨ [wSell] = [] ∨ candidateSet ([wBuy] ++ [wSell]) = [] ∨
          ∀ p ∈ candidateSet ([wBuy] ++ [wSell]), ¬ 0 < matchableAt [wBuy] [wSell] p)
      ∧ (∀ r, compute_clearing_price [wBuy] [wSell] = some r →
          r.price ∈ candidateSet ([wBuy] ++ [wSell])
          ∧ 0 < matchableAt [wBuy] [wSell] r.price
          ∧ r.volume = matchableAt [wBuy] [wSell] r.price
          ∧ r.demand = demandAt [wBuy] r.price
          ∧ r.supply = supplyAt [wSell] r.price
          ∧ ∀ p ∈ candidateSet ([wBuy] ++ [wSell]), p ≠ r.price →
              clearingLT [wBuy] [wSell] p r.price)
      ∧ (∀ x, x ∈ candidateSet ([wBuy] ++ [wSell]) ↔
          ∃ o ∈ [wBuy] ++ [wSell], effective_price o = x ∧ x ≠ DMAX)) :=
  ⟨by decide, compute_clearing_price_spec [wBuy] [wSell] (by decide)⟩

/-! Branch equations of the inner fill loop. -/

/-- Inner loop, stop: index exhausted or buy filled. -/
theorem innerLoop_stop (bId nd tm : ℕ) (cp : ℚ) (buy : Order) (st : LoopState)
    (h : ¬(st.sell_idx < st.sells.length ∧ 0 < buy.remaining_qty)) :
    innerLoop bId nd tm cp buy st = (buy, st) := by
  rw [innerLoop, dif_neg h]

/-- Inner loop, break: the sell at the cursor asks more than the clearing
price. -/
theorem innerLoop_break (bId nd tm : ℕ) (cp : ℚ) (buy : Order) (st : LoopState)
    (h : st.sell_idx < st.sells.length ∧ 0 < buy.remaining_qty)
    (hb : cp < effective_price (st.sells.get ⟨st.sell_idx, h.1⟩)) :
    innerLoop bId nd tm cp buy st = (buy, st) := by
  conv_lhs => rw [innerLoop]
  rw [dif_pos h]
  simp only []
  rw [if_pos hb]

/-- Inner loop, skip: the sell at the cursor is exhausted. -/
theorem innerLoop_skip_zero (bId nd tm : ℕ) (cp : ℚ) (buy : Order) (st : LoopState)
    (h : st.sell_idx < st.sells.length ∧ 0 < buy.remaining_qty)
    (hb : ¬ cp < effective_price (st.sells.get ⟨st.sell_idx, h.1⟩))
    (hz : (st.sells.get ⟨st.sell_idx, h.1⟩).remaining_qty = 0) :
    innerLoop bId nd tm cp buy st =
      innerLoop bId nd tm cp buy { st with sell_idx := st.sell_idx + 1 } := by
  conv_lhs => rw [innerLoop]
  rw [dif_pos h]
  simp only []
  rw [if_neg hb, if_pos hz]

/-- Inner loop, skip: self-trade prevention. -/
theorem innerLoop_skip_self (bId nd tm : ℕ) (cp : ℚ) (buy : Order) (st : LoopState)
    (h : st.sell_idx < st.sells.length ∧ 0 < buy.remaining_qty)
    (hb : ¬ cp < effective_price (st.sells.get ⟨st.sell_idx, h.1⟩))
    (hz : ¬ (st.sells.get ⟨st.sell_idx, h.1⟩).remaining_qty = 0)
    (hs : buy.user_id = (st.sells.get ⟨st.sell_idx, h.1⟩).user_id) :
    innerLoop bId nd tm cp buy st =
      innerLoop bId nd tm cp buy { st with sell_idx := st.sell_idx + 1 } := by
  conv_lhs => rw [innerLoop]
  rw [dif_pos h]
  simp only []
  rw [if_neg hb, if_neg hz, if_pos hs]

/-- Inner loop, fill exhausting the sell: emit the trade, advance the
cursor and keep looping with the partially filled buy. -/
theorem innerLoop_fill_sell (bId nd tm : ℕ) (cp : ℚ) (buy : Order) (st : LoopState)
    (h : st.sell_idx < st.sells.length ∧ 0 < buy.remaining_qty)
    (hb : ¬ cp < effective_price (st.sells.get ⟨st.sell_idx, h.1⟩))
    (hz : ¬ (st.sells.get ⟨st.sell_idx, h.1⟩).remaining_qty = 0)
    (hs : ¬ buy.user_id = (st.sells.get ⟨st.sell_idx, h.1⟩).user_id)
    (hl : (st.sells.get ⟨st.sell_idx, h.1⟩).remaining_qty < buy.remaining_qty) :
    innerLoop bId nd tm cp buy st =
      innerLoop bId nd tm cp
        { buy with remaining_qty :=
            (buy.remaining_qty -
              min buy.remaining_qty (st.sells.get ⟨st.sell_idx, h.1⟩).remaining_qty) }
        { sells := st.sells.set st.sell_idx
            { st.sells.get ⟨st.sell_idx, h.1⟩ with remaining_qty :=
                ((st.sells.get ⟨st.sell_idx, h.1⟩).remaining_qty -
                  min buy.remaining_qty (st.sells.get ⟨st.sell_idx, h.1⟩).remaining_qty) },
          sell_idx := st.sell_idx + 1,
          fill_sequence := st.fill_sequence + 1,
          trades := st.trades ++
            [mkFillTrade bId nd tm cp buy (st.sells.get ⟨st.sell_idx, h.1⟩)
              st.fill_sequence] } := by
  conv_lhs => rw [innerLoop]
  rw [dif_pos h]
  simp only []
  rw [if_neg hb, if_neg hz, if_neg hs, if_pos hl]

/-- Inner loop, fill exhausting the buy: emit the trade and return,
advancing the cursor when the sell was exhausted simultaneously. -/
theorem innerLoop_fill_buy (bId nd tm : ℕ) (cp : ℚ) (buy : Order) (st : LoopState)
    (h : st.sell_idx < st.sells.length ∧ 0 < buy.remaining_qty)
    (hb : ¬ cp < effective_price (st.sells.get ⟨st.sell_idx, h.1⟩))
    (hz : ¬ (st.sells.get ⟨st.sell_idx, h.1⟩).remaining_qty = 0)
    (hs : ¬ buy.user_id = (st.sells.get ⟨st.sell_idx, h.1⟩).user_id)
    (hl : ¬ (st.sells.get ⟨st.sell_idx, h.1⟩).remaining_qty < buy.remaining_qty) :
    innerLoop bId nd tm cp buy st =
      ({ buy with remaining_qty :=
            (buy.remaining_qty -
              min buy.remaining_qty (st.sells.get ⟨st.sell_idx, h.1⟩).remaining_qty) },
        { sells := st.sells.set st.sell_idx
            { st.sells.get ⟨st.sell_idx, h.1⟩ with remaining_qty :=
                ((st.sells.get ⟨st.sell_idx, h.1⟩).remaining_qty -
                  min buy.remaining_qty (st.sells.get ⟨st.sell_idx, h.1⟩).remaining_qty) },
          sell_idx :=
            (if (st.sells.get ⟨st.sell_idx, h.1⟩).remaining_qty -
                min buy.remaining_qty (st.sells.get ⟨st.sell_idx, h.1⟩).remaining_qty = 0
            then st.sell_idx + 1 else st.sell_idx),
          fill_sequence := st.fill_sequence + 1,
          trades := st.trades ++
            [mkFillTrade bId nd tm cp buy (st.sells.get ⟨st.sell_idx, h.1⟩)
              st.fill_sequence] }) := by
  conv_lhs => rw [innerLoop]
  rw [dif_pos h]
  simp only []
  rw [if_neg hb, if_neg hz, if_neg hs, if_neg hl]

/-- Every trade in the state after the inner loop satisfies `tradeCore`
when the trades already accumulated do: the emission site establishes the
uniform price, the self-trade guard, the saturating quote and the taker
side. -/
theorem innerLoop_tradeCore :
    ∀ (n bId nd tm : ℕ) (cp : ℚ) (buy : Order) (st : LoopState),
      st.sells.length - st.sell_idx ≤ n →
      (∀ tr ∈ st.trades, tradeCore bId cp tr) →
      ∀ tr ∈ (innerLoop bId nd tm cp buy st).2.trades, tradeCore bId cp tr := by
  intro n
  induction n with
  | zero =>
    intro bId nd tm cp buy st hle hacc
    by_cases hc : st.sell_idx < st.sells.length ∧ 0 < buy.remaining_qty
    · have h1 := hc.1
      omega
    · rw [innerLoop_stop _ _ _ _ _ _ hc]
      exact hacc
  | succ n ih =>
    intro bId nd tm cp buy st hle hacc
    by_cases hc : st.sell_idx < st.sells.length ∧ 0 < buy.remaining_qty
    · have h1 := hc.1
      by_cases hb : cp < effective_price (st.sells.get ⟨st.sell_idx, hc.1⟩)
      · rw [innerLoop_break _ _ _ _ _ _ hc hb]
        exact hacc
      · by_cases hz : (st.sells.get ⟨st.sell_idx, hc.1⟩).remaining_qty = 0
        · rw [innerLoop_skip_zero _ _ _ _ _ _ hc hb hz]
          exact ih _ _ _ _ _ _ (show st.sells.length - (st.sell_idx + 1) ≤ n by omega) hacc
        · by_cases hs : buy.user_id = (st.sells.get ⟨st.sell_idx, hc.1⟩).user_id
          · rw [innerLoop_skip_self _ _ _ _ _ _ hc hb hz hs]
            exact ih _ _ _ _ _ _ (show st.sells.length - (st.sell_idx + 1) ≤ n by omega) hacc
          · have hacc' : ∀ tr ∈ st.trades ++
                [mkFillTrade bId nd tm cp buy (st.sells.get ⟨st.sell_idx, hc.1⟩)
                  st.fill_sequence], tradeCore bId cp tr := by
              intro tr htr
              rcases List.mem_append.mp htr with h | h
              · exact hacc tr h
              · rcases List.mem_singleton.mp h with rfl
                exact ⟨rfl, hs, rfl, rfl, rfl⟩
            by_cases hl : (st.sells.get ⟨st.sell_idx, hc.1⟩).remaining_qty <
                buy.remaining_qty
            · rw [innerLoop_fill_sell _ _ _ _ _ _ hc hb hz hs hl]
              exact ih _ _ _ _ _ _
                (show (st.sells.set st.sell_idx _).length - (st.sell_idx + 1) ≤ n by
                  simp only [List.length_set]
                  omega) hacc'
            · rw [innerLoop_fill_buy _ _ _ _ _ _ hc hb hz hs hl]
              exact hacc'
    · rw [innerLoop_stop _ _ _ _ _ _ hc]
      exact hacc

/-- The inner loop keeps remaining quantities non-negative and emits only
trades of positive quantity. -/
theorem innerLoop_qty :
    ∀ (n bId nd tm : ℕ) (cp : ℚ) (buy : Order) (st : LoopState),
      st.sells.length - st.sell_idx ≤ n →
      0 ≤ buy.remaining_qty →
      (∀ s ∈ st.sells, 0 ≤ s.remaining_qty) →
      (∀ tr ∈ st.trades, 0 < tr.quantity) →
      (0 ≤ (innerLoop bId nd tm cp buy st).1.remaining_qty
      ∧ (∀ s ∈ (innerLoop bId nd tm cp buy st).2.sells, 0 ≤ s.remaining_qty)
      ∧ ∀ tr ∈ (innerLoop bId nd tm cp buy st).2.trades, 0 < tr.quantity) := by
  intro n
  induction n with
  | zero =>
    intro bId nd tm cp buy st hle hbuy hsells hacc
    by_cases hc : st.sell_idx < st.sells.length ∧ 0 < buy.remaining_qty
    · have h1 := hc.1
      omega
    · rw [innerLoop_stop _ _ _ _ _ _ hc]
      exact ⟨hbuy, hsells, hacc⟩
  | succ n ih =>
    intro bId nd tm cp buy st hle hbuy hsells hacc
    by_cases hc : st.sell_idx < st.sells.length ∧ 0 < buy.remaining_qty
    · have h1 := hc.1
      by_cases hb : cp < effective_price (st.sells.get ⟨st.sell_idx, hc.1⟩)
      · rw [innerLoop_break _ _ _ _ _ _ hc hb]
        exact ⟨hbuy, hsells, hacc⟩
      · by_cases hz : (st.sells.get ⟨st.sell_idx, hc.1⟩).remaining_qty = 0
        · rw [innerLoop_skip_zero _ _ _ _ _ _ hc hb hz]
          exact ih _ _ _ _ _ _ (show st.sells.length - (st.sell_idx + 1) ≤ n by omega)
            hbuy hsells hacc
        · by_cases hs : buy.user_id = (st.sells.get ⟨st.sell_idx, hc.1⟩).user_id
          · rw [innerLoop_skip_self _ _ _ _ _ _ hc hb hz hs]
            exact ih _ _ _ _ _ _ (show st.sells.length - (st.sell_idx + 1) ≤ n by omega)
              hbuy hsells hacc
          · have hsell_pos : 0 < (st.sells.get ⟨st.sell_idx, hc.1⟩).remaining_qty :=
              lt_of_le_of_ne (hsells _ (List.get_mem st.sells st.sell_idx hc.1))
                (Ne.symm hz)
            have hfill_pos :
                0 < min buy.remaining_qty
                  (st.sells.get ⟨st.sell_idx, hc.1⟩).remaining_qty :=
              lt_min hc.2 hsell_pos
            have hbuy' :
                0 ≤ buy.remaining_qty -
                  min buy.remaining_qty
                    (st.sells.get ⟨st.sell_idx, hc.1⟩).remaining_qty :=
              sub_nonneg.mpr (min_le_left _ _)
            have hsells' : ∀ s ∈ st.sells.set st.sell_idx
                { st.sells.get ⟨st.sell_idx, hc.1⟩ with remaining_qty :=
                    ((st.sells.get ⟨st.sell_idx, hc.1⟩).remaining_qty -
                      min buy.remaining_qty
                        (st.sells.get ⟨st.sell_idx, hc.1⟩).remaining_qty) },
                0 ≤ s.remaining_qty := by
              intro s hmem
              rcases List.mem_or_eq_of_mem_set hmem with hmem | rfl
              · exact hsells s hmem
              · exact sub_nonneg.mpr (min_le_right _ _)
            have hacc' : ∀ tr ∈ st.trades ++
                [mkFillTrade bId nd tm cp buy (st.sells.get ⟨st.sell_idx, hc.1⟩)
                  st.fill_sequence], 0 < tr.quantity := by
              intro tr htr
              rcases List.mem_append.mp htr with h | h
              · exact hacc tr h
              · rcases List.mem_singleton.mp h with rfl
                exact hfill_pos
            by_cases hl : (st.sells.get ⟨st.sell_idx, hc.1⟩).remaining_qty <
                buy.remaining_qty
            · rw [innerLoop_fill_sell _ _ _ _ _ _ hc hb hz hs hl]
              exact ih _ _ _ _ _ _
                (show (st.sells.set st.sell_idx _).length - (st.sell_idx + 1) ≤ n by
                  simp only [List.length_set]
                  omega)
                hbuy' hsells' hacc'
            · rw [innerLoop_fill_buy _ _ _ _ _ _ hc hb hz hs hl]
              exact ⟨hbuy', hsells', hacc'⟩
    · rw [innerLoop_stop _ _ _ _ _ _ hc]
      exact ⟨hbuy, hsells, hacc⟩

/-- The inner loop consults the node identity and clock reading only to
fill the `matcher_node` / `executed_at` fields of emitted trades: two runs
differing in node, time and those fields of already-emitted trades produce
the same buy, sells, cursor and fill counter, and trade lists equal after
erasing the two fields. -/
theorem innerLoop_meta :
    ∀ (n bId nd1 tm1 nd2 tm2 : ℕ) (cp : ℚ) (buy : Order) (sells : List Order)
      (idx seq : ℕ) (tr1 tr2 : List Trade),
      sells.length - idx ≤ n →
      tr1.map scrubMeta = tr2.map scrubMeta →
      ((innerLoop bId nd1 tm1 cp buy ⟨sells, idx, seq, tr1⟩).1 =
          (innerLoop bId nd2 tm2 cp buy ⟨sells, idx, seq, tr2⟩).1
      ∧ (innerLoop bId nd1 tm1 cp buy ⟨sells, idx, seq, tr1⟩).2.sells =
          (innerLoop bId nd2 tm2 cp buy ⟨sells, idx, seq, tr2⟩).2.sells
      ∧ (innerLoop bId nd1 tm1 cp buy ⟨sells, idx, seq, tr1⟩).2.sell_idx =
          (innerLoop bId nd2 tm2 cp buy ⟨sells, idx, seq, tr2⟩).2.sell_idx
      ∧ (innerLoop bId nd1 tm1 cp buy ⟨sells, idx, seq, tr1⟩).2.fill_sequence =
          (innerLoop bId nd2 tm2 cp buy ⟨sells, idx, seq, tr2⟩).2.fill_sequence
      ∧ (innerLoop bId nd1 tm1 cp buy ⟨sells, idx, seq, tr1⟩).2.trades.map scrubMeta =
          (innerLoop bId nd2 tm2 cp buy ⟨sells, idx, seq, tr2⟩).2.trades.map scrubMeta) := by
  intro n
  induction n with
  | zero =>
    intro bId nd1 tm1 nd2 tm2 cp buy sells idx seq tr1 tr2 hle htr
    by_cases hc : idx < sells.length ∧ 0 < buy.remaining_qty
    · have h1 := hc.1
      omega
    · rw [innerLoop_stop bId nd1 tm1 cp buy ⟨sells, idx, seq, tr1⟩ hc,
        innerLoop_stop bId nd2 tm2 cp buy ⟨sells, idx, seq, tr2⟩ hc]
      exact ⟨rfl, rfl, rfl, rfl, htr⟩
  | succ n ih =>
    intro bId nd1 tm1 nd2 tm2 cp buy sells idx seq tr1 tr2 hle htr
    by_cases hc : idx < sells.length ∧ 0 < buy.remaining_qty
    · have h1 := hc.1
      by_cases hb : cp < effective_price (sells.get ⟨idx, hc.1⟩)
      · rw [innerLoop_break bId nd1 tm1 cp buy ⟨sells, idx, seq, tr1⟩ hc hb,
          innerLoop_break bId nd2 tm2 cp buy ⟨sells, idx, seq, tr2⟩ hc hb]
        exact ⟨rfl, rfl, rfl, rfl, htr⟩
      · by_cases hz : (sells.get ⟨idx, hc.1⟩).remaining_qty = 0
        · rw [innerLoop_skip_zero bId nd1 tm1 cp buy ⟨sells, idx, seq, tr1⟩ hc hb hz,
            innerLoop_skip_zero bId nd2 tm2 cp buy ⟨sells, idx, seq, tr2⟩ hc hb hz]
          exact ih bId nd1 tm1 nd2 tm2 cp buy sells (idx + 1) seq tr1 tr2
            (by omega) htr
        · by_cases hs : buy.user_id = (sells.get ⟨idx, hc.1⟩).user_id
          · rw [innerLoop_skip_self bId nd1 tm1 cp buy ⟨sells, idx, seq, tr1⟩ hc hb hz hs,
              innerLoop_skip_self bId nd2 tm2 cp buy ⟨sells, idx, seq, tr2⟩ hc hb hz hs]
            exact ih bId nd1 tm1 nd2 tm2 cp buy sells (idx + 1) seq tr1 tr2
              (by omega) htr
          · have htr' :
                (tr1 ++ [mkFillTrade bId nd1 tm1 cp buy (sells.get ⟨idx, hc.1⟩) seq]).map
                    scrubMeta =
                  (tr2 ++ [mkFillTrade bId nd2 tm2 cp buy (sells.get ⟨idx, hc.1⟩) seq]).map
                    scrubMeta := by
              rw [List.map_append, List.map_append, htr]
              rfl
            by_cases hl : (sells.get ⟨idx, hc.1⟩).remaining_qty < buy.remaining_qty
            · rw [innerLoop_fill_sell bId nd1 tm1 cp buy ⟨sells, idx, seq, tr1⟩ hc hb hz hs hl,
                innerLoop_fill_sell bId nd2 tm2 cp buy ⟨sells, idx, seq, tr2⟩ hc hb hz hs hl]
              exact ih bId nd1 tm1 nd2 tm2 cp _ _ (idx + 1) (seq + 1) _ _
                (by simp only [List.length_set]; omega) htr'
            · rw [innerLoop_fill_buy bId nd1 tm1 cp buy ⟨sells, idx, seq, tr1⟩ hc hb hz hs hl,
                innerLoop_fill_buy bId nd2 tm2 cp buy ⟨sells, idx, seq, tr2⟩ hc hb hz hs hl]
              exact ⟨rfl, rfl, rfl, rfl, htr'⟩
    · rw [innerLoop_stop bId nd1 tm1 cp buy ⟨sells, idx, seq, tr1⟩ hc,
        innerLoop_stop bId nd2 tm2 cp buy ⟨sells, idx, seq, tr2⟩ hc]
      exact ⟨rfl, rfl, rfl, rfl, htr⟩

/-! Branch equations of the outer buy loop. -/

/-- Outer loop, done. -/
theorem outerLoop_nil (bId nd tm : ℕ) (cp : ℚ) (done : List Order) (st : LoopState) :
    outerLoop bId nd tm cp [] done st = (done, st) :=
  rfl

/-- Outer loop, skip an exhausted buy. -/
theorem outerLoop_cons_zero (bId nd tm : ℕ) (cp : ℚ) (buy : Order)
    (rest done : List Order) (st : LoopState) (hz : buy.remaining_qty = 0) :
    outerLoop bId nd tm cp (buy :: rest) done st =
      outerLoop bId nd tm cp rest (done ++ [buy]) st := by
  conv_lhs => rw [outerLoop]
  rw [if_pos hz]

/-- Outer loop, stop at the first buy priced below the clearing price. -/
theorem outerLoop_cons_break (bId nd tm : ℕ) (cp : ℚ) (buy : Order)
    (rest done : List Order) (st : LoopState) (hz : ¬ buy.remaining_qty = 0)
    (hbr : effective_price buy < cp) :
    outerLoop bId nd tm cp (buy :: rest) done st = (done ++ buy :: rest, st) := by
  conv_lhs => rw [outerLoop]
  rw [if_neg hz, if_pos hbr]

/-- Outer loop, run the inner loop on an eligible buy. -/
theorem outerLoop_cons_run (bId nd tm : ℕ) (cp : ℚ) (buy : Order)
    (rest done : List Order) (st : LoopState) (hz : ¬ buy.remaining_qty = 0)
    (hbr : ¬ effective_price buy < cp) :
    outerLoop bId nd tm cp (buy :: rest) done st =
      outerLoop bId nd tm cp rest
        (done ++ [(innerLoop bId nd tm cp buy st).1])
        (innerLoop bId nd tm cp buy st).2 := by
  conv_lhs => rw [outerLoop]
  rw [if_neg hz, if_neg hbr]

/-- `tradeCore` is preserved across the whole outer loop. -/
theorem outerLoop_tradeCore (bId nd tm : ℕ) (cp : ℚ) :
    ∀ (buys done : List Order) (st : LoopState),
      (∀ tr ∈ st.trades, tradeCore bId cp tr) →
      ∀ tr ∈ (outerLoop bId nd tm cp buys done st).2.trades, tradeCore bId cp tr := by
  intro buys
  induction buys with
  | nil =>
    intro done st hacc
    rw [outerLoop_nil]
    exact hacc
  | cons buy rest ih =>
    intro done st hacc
    by_cases hz : buy.remaining_qty = 0
    · rw [outerLoop_cons_zero _ _ _ _ _ _ _ _ hz]
      exact ih _ _ hacc
    · by_cases hbr : effective_price buy < cp
      · rw [outerLoop_cons_break _ _ _ _ _ _ _ _ hz hbr]
        exact hacc
      · rw [outerLoop_cons_run _ _ _ _ _ _ _ _ hz hbr]
        exact ih _ _
          (innerLoop_tradeCore (st.sells.length - st.sell_idx) bId nd tm cp buy st
            le_rfl hacc)

/-- Quantity positivity of all emitted trades across the outer loop. -/
theorem outerLoop_qty (bId nd tm : ℕ) (cp : ℚ) :
    ∀ (buys done : List Order) (st : LoopState),
      (∀ b ∈ buys, 0 ≤ b.remaining_qty) →
      (∀ s ∈ st.sells, 0 ≤ s.remaining_qty) →
      (∀ tr ∈ st.trades, 0 < tr.quantity) →
      ((∀ s ∈ (outerLoop bId nd tm cp buys done st).2.sells, 0 ≤ s.remaining_qty)
      ∧ ∀ tr ∈ (outerLoop bId nd tm cp buys done st).2.trades, 0 < tr.quantity) := by
  intro buys
  induction buys with
  | nil =>
    intro done st _ hsells hacc
    rw [outerLoop_nil]
    exact ⟨hsells, hacc⟩
  | cons buy rest ih =>
    intro done st hbuys hsells hacc
    by_cases hz : buy.remaining_qty = 0
    · rw [outerLoop_cons_zero _ _ _ _ _ _ _ _ hz]
      exact ih _ _ (fun b hb => hbuys b (List.mem_cons_of_mem buy hb)) hsells hacc
    · by_cases hbr : effective_price buy < cp
      · rw [outerLoop_cons_break _ _ _ _ _ _ _ _ hz hbr]
        exact ⟨hsells, hacc⟩
      · rw [outerLoop_cons_run _ _ _ _ _ _ _ _ hz hbr]
        obtain ⟨_, h2, h3⟩ := innerLoop_qty (st.sells.length - st.sell_idx) bId nd tm cp
          buy st le_rfl (hbuys buy (List.mem_cons_self buy rest)) hsells hacc
        exact ih _ _ (fun b hb => hbuys b (List.mem_cons_of_mem buy hb)) h2 h3

/-- Component-wise version of `innerLoop_meta` for arbitrary states. -/
theorem innerLoop_meta_states (bId nd1 tm1 nd2 tm2 : ℕ) (cp : ℚ) (buy : Order)
    (st1 st2 : LoopState) (hs : st1.sells = st2.sells)
    (hi : st1.sell_idx = st2.sell_idx) (hf : st1.fill_sequence = st2.fill_sequence)
    (htr : st1.trades.map scrubMeta = st2.trades.map scrubMeta) :
    ((innerLoop bId nd1 tm1 cp buy st1).1 = (innerLoop bId nd2 tm2 cp buy st2).1
    ∧ (innerLoop bId nd1 tm1 cp buy st1).2.sells =
        (innerLoop bId nd2 tm2 cp buy st2).2.sells
    ∧ (innerLoop bId nd1 tm1 cp buy st1).2.sell_idx =
        (innerLoop bId nd2 tm2 cp buy st2).2.sell_idx
    ∧ (innerLoop bId nd1 tm1 cp buy st1).2.fill_sequence =
        (innerLoop bId nd2 tm2 cp buy st2).2.fill_sequence
    ∧ (innerLoop bId nd1 tm1 cp buy st1).2.trades.map scrubMeta =
        (innerLoop bId nd2 tm2 cp buy st2).2.trades.map scrubMeta) := by
  obtain ⟨sells1, idx1, seq1, tr1⟩ := st1
  obtain ⟨sells2, idx2, seq2, tr2⟩ := st2
  simp only [] at hs hi hf htr
  subst hs
  subst hi
  subst hf
  exact innerLoop_meta (sells1.length - idx1) bId nd1 tm1 nd2 tm2 cp buy sells1
    idx1 seq1 tr1 tr2 le_rfl htr

/-- The outer loop consults the node identity and clock only in the meta
fields of emitted trades. -/
theorem outerLoop_meta (bId nd1 tm1 nd2 tm2 : ℕ) (cp : ℚ) :
    ∀ (buys done1 done2 : List Order) (st1 st2 : LoopState),
      done1 = done2 → st1.sells = st2.sells → st1.sell_idx = st2.sell_idx →
      st1.fill_sequence = st2.fill_sequence →
      st1.trades.map scrubMeta = st2.trades.map scrubMeta →
      ((outerLoop bId nd1 tm1 cp buys done1 st1).1 =
          (outerLoop bId nd2 tm2 cp buys done2 st2).1
      ∧ (outerLoop bId nd1 tm1 cp buys done1 st1).2.sells =
          (outerLoop bId nd2 tm2 cp buys done2 st2).2.sells
      ∧ (outerLoop bId nd1 tm1 cp buys done1 st1).2.trades.map scrubMeta =
          (outerLoop bId nd2 tm2 cp buys done2 st2).2.trades.map scrubMeta) := by
  intro buys
  induction buys with
  | nil =>
    intro done1 done2 st1 st2 hd hs hi hf htr
    rw [outerLoop_nil, outerLoop_nil]
    exact ⟨hd, hs, htr⟩
  | cons buy rest ih =>
    intro done1 done2 st1 st2 hd hs hi hf htr
    by_cases hz : buy.remaining_qty = 0
    · rw [outerLoop_cons_zero _ _ _ _ _ _ _ _ hz, outerLoop_cons_zero _ _ _ _ _ _ _ _ hz]
      exact ih (done1 ++ [buy]) (done2 ++ [buy]) st1 st2 (by rw [hd]) hs hi hf htr
    · by_cases hbr : effective_price buy < cp
      · rw [outerLoop_cons_break _ _ _ _ _ _ _ _ hz hbr,
          outerLoop_cons_break _ _ _ _ _ _ _ _ hz hbr]
        exact ⟨by rw [hd], hs, htr⟩
      · rw [outerLoop_cons_run _ _ _ _ _ _ _ _ hz hbr,
          outerLoop_cons_run _ _ _ _ _ _ _ _ hz hbr]
        obtain ⟨e1, e2, e3, e4, e5⟩ :=
          innerLoop_meta_states bId nd1 tm1 nd2 tm2 cp buy st1 st2 hs hi hf htr
        exact ih _ _ _ _ (by rw [hd, e1]) e2 e3 e4 e5

/-- `matchOrders` when the clearing solver finds no crossing. -/
theorem matchOrders_eq_none (batchId node time : ℕ) (orders : List Order)
    (input_hash : List HashTok)
    (h : compute_clearing_price (matchBuys orders) (matchSells orders) = none) :
    matchOrders batchId node time orders input_hash =
      { batch_id := batchId, trades := [],
        result_hash := compute_result_hash batchId [],
        input_hash := input_hash,
        remaining_orders :=
          (matchBuys orders ++ matchSells orders).filter fun o =>
            decide (0 < o.remaining_qty),
        clearing_price := none } := by
  unfold matchOrders
  rw [h]

/-- `matchOrders` when the clearing solver returns a crossing. -/
theorem matchOrders_eq_some (batchId node time : ℕ) (orders : List Order)
    (input_hash : List HashTok) (cr : ClearingResult)
    (h : compute_clearing_price (matchBuys orders) (matchSells orders) = some cr) :
    matchOrders batchId node time orders input_hash =
      { batch_id := batchId,
        trades :=
          (outerLoop batchId node time cr.price (matchBuys orders) []
            ⟨matchSells orders, 0, 0, []⟩).2.trades,
        result_hash :=
          compute_result_hash batchId
            (outerLoop batchId node time cr.price (matchBuys orders) []
              ⟨matchSells orders, 0, 0, []⟩).2.trades,
        input_hash := input_hash,
        remaining_orders :=
          ((outerLoop batchId node time cr.price (matchBuys orders) []
              ⟨matchSells orders, 0, 0, []⟩).1 ++
            (outerLoop batchId node time cr.price (matchBuys orders) []
              ⟨matchSells orders, 0, 0, []⟩).2.sells).filter fun o =>
            decide (0 < o.remaining_qty),
        clearing_price := some cr.price } := by
  unfold matchOrders
  rw [h]

/-- The result hash only reads the scrub-invariant fields of each trade. -/
theorem compute_result_hash_scrub_congr (bId : ℕ) {l1 l2 : List Trade}
    (h : l1.map scrubMeta = l2.map scrubMeta) :
    compute_result_hash bId l1 = compute_result_hash bId l2 := by
  unfold compute_result_hash
  have hlen : l1.length = l2.length := by
    have hc := congrArg List.length h
    simpa using hc
  have htoks : l1.map tradeHashToks = l2.map tradeHashToks := by
    have e1 : l1.map tradeHashToks = (l1.map scrubMeta).map tradeHashToks := by
      rw [List.map_map]
      rfl
    have e2 : l2.map tradeHashToks = (l2.map scrubMeta).map tradeHashToks := by
      rw [List.map_map]
      rfl
    rw [e1, e2, h]
  rw [hlen, htoks]

/-- Membership in the matcher's buy vector. -/
theorem mem_matchBuys {orders : List Order} {o : Order} :
    o ∈ matchBuys orders ↔
      o ∈ orders ∧ o.side = Side.buy ∧ o.order_type ≠ OType.cancel := by
  unfold matchBuys
  rw [(List.perm_insertionSort buyLE _).mem_iff, List.mem_filter]
  simp

/-- Membership in the matcher's sell vector. -/
theorem mem_matchSells {orders : List Order} {o : Order} :
    o ∈ matchSells orders ↔
      o ∈ orders ∧ o.side = Side.sell ∧ o.order_type ≠ OType.cancel := by
  unfold matchSells
  rw [(List.perm_insertionSort sellLE _).mem_iff, List.mem_filter]
  simp

/-- Saturating multiplication of non-negatives is non-negative. -/
theorem satMul_nonneg {a b : ℚ} (ha : 0 ≤ a) (hb : 0 ≤ b) : 0 ≤ satMul a b := by
  unfold satMul checkedMul
  by_cases h : |a * b| ≤ DMAX
  · rw [if_pos h]
    simpa using mul_nonneg ha hb
  · rw [if_neg h]
    norm_num [DMAX]

/-- C2: the matcher is a function of the sealed input alone — two runs on
the same order list with different node identities and clock readings
produce the same trades up to the `matcher_node` / `executed_at` metadata
fields (in particular equal ids, prices, quantities, taker/maker order and
user ids), the same result-hash input, the same clearing price and the
same remaining orders. -/
theorem match_batch_deterministic (batchId nd1 tm1 nd2 tm2 : ℕ)
    (orders : List Order) (input_hash : List HashTok) :
    (matchOrders batchId nd1 tm1 orders input_hash).trades.map scrubMeta =
        (matchOrders batchId nd2 tm2 orders input_hash).trades.map scrubMeta
    ∧ (matchOrders batchId nd1 tm1 orders input_hash).result_hash =
        (matchOrders batchId nd2 tm2 orders input_hash).result_hash
    ∧ (matchOrders batchId nd1 tm1 orders input_hash).clearing_price =
        (matchOrders batchId nd2 tm2 orders input_hash).clearing_price
    ∧ (matchOrders batchId nd1 tm1 orders input_hash).remaining_orders =
        (matchOrders batchId nd2 tm2 orders input_hash).remaining_orders := by
  cases h : compute_clearing_price (matchBuys orders) (matchSells orders) with
  | none =>
    rw [matchOrders_eq_none batchId nd1 tm1 orders input_hash h,
      matchOrders_eq_none batchId nd2 tm2 orders input_hash h]
    exact ⟨rfl, rfl, rfl, rfl⟩
  | some cr =>
    rw [matchOrders_eq_some batchId nd1 tm1 orders input_hash cr h,
      matchOrders_eq_some batchId nd2 tm2 orders input_hash cr h]
    obtain ⟨e1, e2, e5⟩ := outerLoop_meta batchId nd1 tm1 nd2 tm2 cr.price
      (matchBuys orders) [] [] ⟨matchSells orders, 0, 0, []⟩
      ⟨matchSells orders, 0, 0, []⟩ rfl rfl rfl rfl rfl
    refine ⟨e5, compute_result_hash_scrub_congr batchId e5, rfl, ?_⟩
    rw [e1, e2]

/-- C3: every trade emitted by the matcher has distinct taker and maker
users — a buy and a sell of the same user are never filled against each
other. -/
theorem self_trade_prevention (batchId node time : ℕ) (orders : List Order)
    (input_hash : List HashTok) :
    ∀ tr ∈ (matchOrders batchId node time orders input_hash).trades,
      tr.taker_user_id ≠ tr.maker_user_id := by
  intro tr htr
  cases h : compute_clearing_price (matchBuys orders) (matchSells orders) with
  | none =>
    rw [matchOrders_eq_none batchId node time orders input_hash h] at htr
    exact absurd htr (List.not_mem_nil tr)
  | some cr =>
    rw [matchOrders_eq_some batchId node time orders input_hash cr h] at htr
    exact (outerLoop_tradeCore batchId node time cr.price (matchBuys orders) []
      ⟨matchSells orders, 0, 0, []⟩ (fun t ht => absurd ht (List.not_mem_nil t))
      tr htr).2.1

/-- C4: when the matcher emits at least one trade the result carries
`clearing_price = some cp` and every trade executes exactly at `cp`. -/
theorem uniform_clearing_price (batchId node time : ℕ) (orders : List Order)
    (input_hash : List HashTok) :
    (matchOrders batchId node time orders input_hash).trades ≠ [] →
    ∃ cp, (matchOrders batchId node time orders input_hash).clearing_price = some cp
      ∧ ∀ tr ∈ (matchOrders batchId node time orders input_hash).trades,
          tr.price = cp := by
  intro hne
  cases h : compute_clearing_price (matchBuys orders) (matchSells orders) with
  | none =>
    rw [matchOrders_eq_none batchId node time orders input_hash h] at hne
    exact absurd rfl hne
  | some cr =>
    refine ⟨cr.price, ?_, ?_⟩
    · rw [matchOrders_eq_some batchId node time orders input_hash cr h]
    · intro tr htr
      rw [matchOrders_eq_some batchId node time orders input_hash cr h] at htr
      exact (outerLoop_tradeCore batchId node time cr.price (matchBuys orders) []
        ⟨matchSells orders, 0, 0, []⟩ (fun t ht => absurd ht (List.not_mem_nil t))
        tr htr).1

/-- C9: with non-negative remaining quantities and non-negative effective
prices on input, every trade emitted by the matcher has positive quantity,
quote amount equal to the saturating product of its price and quantity
(`checked_mul` defaulted to `Decimal::MAX`, hence always defined), and a
non-negative quote amount. -/
theorem quote_amount_saturating (batchId node time : ℕ) (orders : List Order)
    (input_hash : List HashTok)
    (hq : ∀ o ∈ orders, 0 ≤ o.remaining_qty)
    (hp : ∀ o ∈ orders, 0 ≤ effective_price o) :
    ∀ tr ∈ (matchOrders batchId node time orders input_hash).trades,
      0 < tr.quantity ∧ tr.quote_amount = satMul tr.price tr.quantity
      ∧ 0 ≤ tr.quote_amount := by
  intro tr htr
  cases h : compute_clearing_price (matchBuys orders) (matchSells orders) with
  | none =>
    rw [matchOrders_eq_none batchId node time orders input_hash h] at htr
    exact absurd htr (List.not_mem_nil tr)
  | some cr =>
    rw [matchOrders_eq_some batchId node time orders input_hash cr h] at htr
    have hcore := (outerLoop_tradeCore batchId node time cr.price (matchBuys orders) []
      ⟨matchSells orders, 0, 0, []⟩ (fun t ht => absurd ht (List.not_mem_nil t))
      tr htr)
    have hbuys : ∀ b ∈ matchBuys orders, 0 ≤ b.remaining_qty := fun b hb =>
      hq b (mem_matchBuys.mp hb).1
    have hsells : ∀ s ∈ matchSells orders, 0 ≤ s.remaining_qty := fun s hs =>
      hq s (mem_matchSells.mp hs).1
    have hqty := (outerLoop_qty batchId node time cr.price (matchBuys orders) []
      ⟨matchSells orders, 0, 0, []⟩ hbuys hsells
      (fun t ht => absurd ht (List.not_mem_nil t))).2 tr htr
    have hnnall : ∀ o ∈ matchBuys orders ++ matchSells orders, 0 ≤ o.remaining_qty := by
      intro o ho
      rcases List.mem_append.mp ho with ho | ho
      · exact hbuys o ho
      · exact hsells o ho
    have hsome := (compute_clearing_price_spec (matchBuys orders) (matchSells orders)
      hnnall).2.1 cr h
    have hcp : 0 ≤ cr.price := by
      rcases (candidateSet_mem (matchBuys orders ++ matchSells orders) cr.price).mp
        hsome.1 with ⟨o, ho, heq, _⟩
      rcases List.mem_append.mp ho with ho | ho
      · exact heq ▸ hp o (mem_matchBuys.mp ho).1
      · exact heq ▸ hp o (mem_matchSells.mp ho).1
    refine ⟨hqty, ?_, ?_⟩
    · rw [hcore.1]
      exact hcore.2.2.1
    · rw [hcore.2.2.1]
      exact satMul_nonneg hcp (le_of_lt hqty)

/-- Concrete evaluation: matching the crossing pair `wBuy` / `wSell` in
batch 7 on node 3 at time 9 emits exactly one fill of 5 at price 100. -/
theorem wTrades_eval :
    (matchOrders 7 3 9 [wBuy, wSell] []).trades =
      [mkFillTrade 7 3 9 100 wBuy wSell 0] := by
  have hbuys : matchBuys [wBuy, wSell] = [wBuy] := by decide
  have hsells : matchSells [wBuy, wSell] = [wSell] := by decide
  have hcc :
      compute_clearing_price (matchBuys [wBuy, wSell]) (matchSells [wBuy, wSell]) =
        some ⟨100, 5, 5, 5⟩ := by
    rw [hbuys, hsells]
    norm_num [compute_clearing_price, candidateSet, insertPrice, considerCandidate,
      demandAt, supplyAt, wBuy, wSell, effective_price, DMAX,
      List.foldl_cons, List.foldl_nil, List.filter_cons, List.filter_nil]
  rw [matchOrders_eq_some 7 3 9 [wBuy, wSell] [] ⟨100, 5, 5, 5⟩ hcc, hbuys, hsells]
  show (outerLoop 7 3 9 100 [wBuy] [] ⟨[wSell], 0, 0, []⟩).2.trades = _
  rw [outerLoop_cons_run 7 3 9 100 wBuy [] [] ⟨[wSell], 0, 0, []⟩
    (by decide) (by decide)]
  rw [innerLoop_fill_buy 7 3 9 100 wBuy ⟨[wSell], 0, 0, []⟩
    ⟨by decide, by decide⟩ (by decide) (by decide) (by decide) (by decide)]
  rfl

/-- C3 witness: the self-trade theorem applied to the concrete emitted
trade between users 1 and 2. -/
theorem self_trade_prevention_witness :
    mkFillTrade 7 3 9 100 wBuy wSell 0 ∈ (matchOrders 7 3 9 [wBuy, wSell] []).trades
    ∧ (mkFillTrade 7 3 9 100 wBuy wSell 0).taker_user_id ≠
        (mkFillTrade 7 3 9 100 wBuy wSell 0).maker_user_id :=
  ⟨by
    rw [wTrades_eval]
    exact List.mem_singleton_self _,
   self_trade_prevention 7 3 9 [wBuy, wSell] [] _
    (by
      rw [wTrades_eval]
      exact List.mem_singleton_self _)⟩

/-- C4 witness: the uniform-pricing theorem applied to the concrete batch
with one emitted trade. -/
theorem uniform_clearing_price_witness :
    (matchOrders 7 3 9 [wBuy, wSell] []).trades ≠ []
    ∧ ∃ cp, (matchOrders 7 3 9 [wBuy, wSell] []).clearing_price = some cp
        ∧ ∀ tr ∈ (matchOrders 7 3 9 [wBuy, wSell] []).trades, tr.price = cp :=
  ⟨by
    rw [wTrades_eval]
    exact List.cons_ne_nil _ _,
   uniform_clearing_price 7 3 9 [wBuy, wSell] []
    (by
      rw [wTrades_eval]
      exact List.cons_ne_nil _ _)⟩

/-- C9 witness: the quote-amount theorem applied to the concrete batch;
both hypotheses are discharged on the two concrete orders. -/
theorem quote_amount_saturating_witness :
    (∀ o ∈ [wBuy, wSell], 0 ≤ o.remaining_qty)
    ∧ (∀ o ∈ [wBuy, wSell], 0 ≤ effective_price o)
    ∧ ∀ tr ∈ (matchOrders 7 3 9 [wBuy, wSell] []).trades,
        0 < tr.quantity ∧ tr.quote_amount = satMul tr.price tr.quantity
        ∧ 0 ≤ tr.quote_amount :=
  ⟨by decide, by decide,
   quote_amount_saturating 7 3 9 [wBuy, wSell] [] (by decide) (by decide)⟩

/-! ## Seal canonicalization (C7) -/

theorem lexNQN_total (x y : ℕ × ℚ × ℕ) : lexNQN x y ∨ lexNQN y x := by
  unfold lexNQN
  rcases lt_trichotomy x.1 y.1 with h | h | h
  · exact Or.inl (Or.inl h)
  · rcases lt_trichotomy x.2.1 y.2.1 with h2 | h2 | h2
    · exact Or.inl (Or.inr ⟨h, Or.inl h2⟩)
    · rcases le_total x.2.2 y.2.2 with h3 | h3
      · exact Or.inl (Or.inr ⟨h, Or.inr ⟨h2, h3⟩⟩)
      · exact Or.inr (Or.inr ⟨h.symm, Or.inr ⟨h2.symm, h3⟩⟩)
    · exact Or.inr (Or.inr ⟨h.symm, Or.inl h2⟩)
  · exact Or.inr (Or.inl h)

theorem lexNQN_trans {x y z : ℕ × ℚ × ℕ} (h1 : lexNQN x y) (h2 : lexNQN y z) :
    lexNQN x z := by
  unfold lexNQN at h1 h2 ⊢
  rcases h1 with h1 | ⟨e1, h1⟩ <;> rcases h2 with h2 | ⟨e2, h2⟩
  · exact Or.inl (lt_trans h1 h2)
  · exact Or.inl (by rw [← e2]; exact h1)
  · exact Or.inl (by rw [e1]; exact h2)
  · rcases h1 with h1 | ⟨f1, h1⟩ <;> rcases h2 with h2 | ⟨f2, h2⟩
    · exact Or.inr ⟨e1.trans e2, Or.inl (lt_trans h1 h2)⟩
    · exact Or.inr ⟨e1.trans e2, Or.inl (by rw [← f2]; exact h1)⟩
    · exact Or.inr ⟨e1.trans e2, Or.inl (by rw [f1]; exact h2)⟩
    · exact Or.inr ⟨e1.trans e2, Or.inr ⟨f1.trans f2, le_trans h1 h2⟩⟩

theorem lexNQN_antisymm {x y : ℕ × ℚ × ℕ} (h1 : lexNQN x y) (h2 : lexNQN y x) :
    x.2.2 = y.2.2 := by
  unfold lexNQN at h1 h2
  rcases h1 with h1 | ⟨e1, h1⟩
  · rcases h2 with h2 | ⟨e2, h2⟩
    · exact absurd h2 (lt_asymm h1)
    · exfalso; omega
  · rcases h2 with h2 | ⟨e2, h2⟩
    · exfalso; omega
    · rcases h1 with h1 | ⟨f1, h1⟩ <;> rcases h2 with h2 | ⟨f2, h2⟩
      · exact absurd h2 (lt_asymm h1)
      · rw [f2] at h1; exact absurd h1 (lt_irrefl _)
      · rw [f1] at h2; exact absurd h2 (lt_irrefl _)
      · exact le_antisymm h1 h2

theorem sealLE_total (a b : Order) : sealLE a b ∨ sealLE b a :=
  lexNQN_total _ _

theorem sealLE_trans {a b c : Order} (h1 : sealLE a b) (h2 : sealLE b c) :
    sealLE a c :=
  lexNQN_trans h1 h2

instance : IsTotal Order sealLE := ⟨sealLE_total⟩

instance : IsTrans Order sealLE := ⟨fun _ _ _ => sealLE_trans⟩

/-- Two orders each at most the other under the seal comparator carry the
same sequence number (the comparator's final tie-break key). -/
theorem sealLE_antisymm_seq {a b : Order} (h1 : sealLE a b) (h2 : sealLE b a) :
    a.sequence = b.sequence :=
  lexNQN_antisymm h1 h2

theorem sealKey_buy {o : Order} (h : o.side = Side.buy) :
    sealKey o = (0, -(effective_price o), o.sequence) := by
  unfold sealKey sideRank
  rw [h]

theorem sealKey_sell {o : Order} (h : o.side = Side.sell) :
    sealKey o = (1, effective_price o, o.sequence) := by
  unfold sealKey sideRank
  rw [h]

/-- The seal comparator implies the specification's wording of the
arrangement. -/
theorem sealLE_imp_claimOrder {a b : Order} (hle : sealLE a b) :
    claimOrder a b := by
  unfold sealLE lexNQN at hle
  unfold claimOrder
  cases ha : a.side <;> cases hb : b.side
  · refine Or.inr (Or.inl ⟨rfl, rfl, ?_⟩)
    rw [sealKey_buy ha, sealKey_buy hb] at hle
    simp only at hle
    rcases hle with h | ⟨-, h | ⟨he, hs⟩⟩
    · exact absurd h (lt_irrefl 0)
    · exact Or.inl (neg_lt_neg_iff.mp h)
    · exact Or.inr ⟨neg_inj.mp he, hs⟩
  · exact Or.inl ⟨rfl, rfl⟩
  · exfalso
    rw [sealKey_sell ha, sealKey_buy hb] at hle
    simp only at hle
    rcases hle with h | ⟨e, -⟩
    · exact absurd h (by omega)
    · exact absurd e (by omega)
  · refine Or.inr (Or.inr ⟨rfl, rfl, ?_⟩)
    rw [sealKey_sell ha, sealKey_sell hb] at hle
    simp only at hle
    rcases hle with h | ⟨-, h | ⟨he, hs⟩⟩
    · exact absurd h (lt_irrefl 1)
    · exact Or.inl h
    · exact Or.inr ⟨he, hs⟩

/-- Two sorted arrangements of the same multiset of orders coincide when
the orders carry pairwise-distinct sequence numbers (as `push` guarantees,
assigning a fresh counter value to every order). -/
theorem sorted_perm_nodup_eq :
    ∀ (l₁ l₂ : List Order), l₁.Perm l₂ → List.Sorted sealLE l₁ →
      List.Sorted sealLE l₂ → (l₁.map Order.sequence).Nodup → l₁ = l₂ := by
  intro l₁
  induction l₁ with
  | nil =>
    intro l₂ hp _ _ _
    exact hp.nil_eq
  | cons a t₁ ih =>
    intro l₂ hp hs₁ hs₂ hnd
    cases l₂ with
    | nil => exact List.noConfusion hp.eq_nil
    | cons b t₂ =>
      rw [List.map_cons, List.nodup_cons] at hnd
      have hbin : b ∈ a :: t₁ := hp.symm.subset (List.mem_cons_self b t₂)
      have hain : a ∈ b :: t₂ := hp.subset (List.mem_cons_self a t₁)
      have hab : a = b := by
        by_cases heq : a = b
        · exact heq
        · exfalso
          have hb1 : b ∈ t₁ := by
            rcases List.mem_cons.mp hbin with h | h
            · exact absurd h.symm heq
            · exact h
          have ha2 : a ∈ t₂ := by
            rcases List.mem_cons.mp hain with h | h
            · exact absurd h heq
            · exact h
          have h1 : sealLE a b := List.rel_of_sorted_cons hs₁ b hb1
          have h2 : sealLE b a := List.rel_of_sorted_cons hs₂ a ha2
          have hseq : a.sequence = b.sequence := sealLE_antisymm_seq h1 h2
          have hmem : a.sequence ∈ t₁.map Order.sequence := by
            rw [hseq]
            exact List.mem_map_of_mem Order.sequence hb1
          exact hnd.1 hmem
      subst hab
      have hp' : t₁.Perm t₂ := hp.cons_inv
      rw [ih t₂ hp' hs₁.of_cons hs₂.of_cons hnd.2]

/-- C7: sealing an unsealed buffer succeeds and arranges the orders with
every Buy before every Sell, Buys by descending effective price, Sells by
ascending effective price, ties broken by ascending sequence; two unsealed
buffers holding the same orders (with distinct sequence numbers) under the
same batch id produce the same batch hash; and a second `seal` on the
sealed buffer fails with `BufferAlreadySealed`, leaving it unchanged. -/
theorem seal_canonical (b1 b2 : PendingBuffer)
    (h1 : b1.sealed = false) (h2 : b2.sealed = false)
    (hid : b1.batch_id = b2.batch_id)
    (hperm : b1.orders.Perm b2.orders)
    (hnd : (b1.orders.map Order.sequence).Nodup) :
    ∃ h sb1 sb2,
      b1.seal = (Except.ok h, sb1) ∧
      b2.seal = (Except.ok h, sb2) ∧
      sb1.batch_hash = some h ∧
      List.Pairwise claimOrder sb1.orders ∧
      sb1.orders.Perm b1.orders ∧
      sb1.seal = (Except.error OMError.BufferAlreadySealed, sb1) := by
  have hs1 : List.Sorted sealLE (sealSort b1.orders) :=
    List.sorted_insertionSort sealLE b1.orders
  have hs2 : List.Sorted sealLE (sealSort b2.orders) :=
    List.sorted_insertionSort sealLE b2.orders
  have hp : (sealSort b1.orders).Perm (sealSort b2.orders) :=
    ((List.perm_insertionSort sealLE b1.orders).trans hperm).trans
      (List.perm_insertionSort sealLE b2.orders).symm
  have hnd' : ((sealSort b1.orders).map Order.sequence).Nodup :=
    (((List.perm_insertionSort sealLE b1.orders).map Order.sequence).nodup_iff).mpr hnd
  have hsort : sealSort b1.orders = sealSort b2.orders :=
    sorted_perm_nodup_eq _ _ hp hs1 hs2 hnd'
  refine ⟨batchHashInput b1.batch_id (sealSort b1.orders),
    { b1 with orders := sealSort b1.orders, sealed := true,
              batch_hash := some (batchHashInput b1.batch_id (sealSort b1.orders)) },
    { b2 with orders := sealSort b2.orders, sealed := true,
              batch_hash := some (batchHashInput b2.batch_id (sealSort b2.orders)) },
    ?_, ?_, rfl, ?_, ?_, ?_⟩
  · unfold PendingBuffer.seal
    rw [if_neg (by simp [h1])]
  · unfold PendingBuffer.seal
    rw [if_neg (by simp [h2]), hid, hsort]
  · exact List.Pairwise.imp (fun h => sealLE_imp_claimOrder h) hs1
  · exact List.perm_insertionSort sealLE b1.orders
  · unfold PendingBuffer.seal
    rw [if_pos rfl]

/-- An unsealed two-order buffer holding the limit buy and sell. -/
def c7b1 : PendingBuffer := ⟨[wBuy, wSell], 2, false, none, 5⟩

/-- The same buffer with the two orders in the opposite arrival order. -/
def c7b2 : PendingBuffer := ⟨[wSell, wBuy], 2, false, none, 5⟩

theorem seal_canonical_witness :
    (c7b1.sealed = false ∧ c7b2.sealed = false ∧ c7b1.batch_id = c7b2.batch_id ∧
      c7b1.orders.Perm c7b2.orders ∧
      (c7b1.orders.map Order.sequence).Nodup) ∧
    (∃ h sb1 sb2,
      c7b1.seal = (Except.ok h, sb1) ∧
      c7b2.seal = (Except.ok h, sb2) ∧
      sb1.batch_hash = some h ∧
      List.Pairwise claimOrder sb1.orders ∧
      sb1.orders.Perm c7b1.orders ∧
      sb1.seal = (Except.error OMError.BufferAlreadySealed, sb1)) :=
  ⟨⟨rfl, rfl, rfl, by decide, by decide⟩,
   seal_canonical c7b1 c7b2 rfl rfl rfl (by decide) (by decide)⟩

end OpenMatch
